import Mathlib

/-!
Verification of the schemafy schema-to-Rust-types generator (src/lib.rs)
against its natural-language specification.

The Rust source is shallowly embedded: JSON values, the schema node type,
the `allOf` merger, the reference resolver, the type expander and the
declaration emitter are translated into executable Lean definitions.
Token streams produced by the `quote!` macro are modelled as lists of
strings: each literal chunk of a `quote!` body is one list element, and
every interpolated value is spliced in source order.  Recursion that is
unbounded in Rust (reference resolution can cycle through `definitions`)
is made total with an explicit fuel parameter; Rust panics are modelled
as `Except` errors.
-/

namespace Schemafy

/-- A JSON value (`serde_json::Value`).  Numbers are irrelevant to every
property proved here, so they are carried as integers. -/
inductive Value where
  | null : Value
  | bool (b : Bool) : Value
  | num (n : Int) : Value
  | str (s : String) : Value
  | arr (xs : List Value) : Value
  | obj (fields : List (String × Value)) : Value
deriving Repr

mutual

/-- Structural equality on JSON values (`PartialEq for serde_json::Value`). -/
def Value.beq : Value → Value → Bool
  | .null, .null => true
  | .bool a, .bool b => a == b
  | .num a, .num b => a == b
  | .str a, .str b => a == b
  | .arr a, .arr b => Value.beqList a b
  | .obj a, .obj b => Value.beqObj a b
  | _, _ => false

/-- Element-wise equality of JSON arrays. -/
def Value.beqList : List Value → List Value → Bool
  | [], [] => true
  | x :: xs, y :: ys => Value.beq x y && Value.beqList xs ys
  | _, _ => false

/-- Entry-wise equality of JSON objects. -/
def Value.beqObj : List (String × Value) → List (String × Value) → Bool
  | [], [] => true
  | (k1, v1) :: xs, (k2, v2) :: ys =>
      k1 == k2 && Value.beq v1 v2 && Value.beqObj xs ys
  | _, _ => false

end

/-- Equality of `Option<Value>` (`PartialEq for Option<T>`). -/
def Value.optBeq : Option Value → Option Value → Bool
  | none, none => true
  | some a, some b => Value.beq a b
  | _, _ => false

/-- The JSON Schema simple type names (`schema::SimpleTypes`). -/
inductive SimpleTypes where
  | array | boolean | integer | null | number | object | string
deriving DecidableEq, Repr

/-- `OneOrMany<T>`: either a single value or a list of values. -/
inductive OneOrMany (α : Type) where
  | one (v : α) : OneOrMany α
  | many (vs : List α) : OneOrMany α
deriving DecidableEq, Repr

/-- Equality of `Option<Vec<Value>>`. -/
def Value.optListBeq : Option (List Value) → Option (List Value) → Bool
  | none, none => true
  | some a, some b => Value.beqList a b
  | _, _ => false

/-- The slice view provided by `Deref for OneOrMany`:
`One(v)` derefs to a one-element slice, `Many(vs)` to `vs`. -/
def OneOrMany.toList {α : Type} : OneOrMany α → List α
  | .one v => [v]
  | .many vs => vs

/-- `as_mut_vec`: the vector obtained after coercing a `OneOrMany` to its
`Many` form (used by the merger before `retain`). -/
def OneOrMany.asVec {α : Type} : OneOrMany α → List α
  | .one v => [v]
  | .many vs => vs

/-- Modelled from the spec: the schema node of §3 (the repository's
generated `src/schema.rs` is not present in the sources).  Field types
follow the uses in `src/lib.rs`: `properties` is iterated and merged via
a map entry API, `required` is an optional list of names, `type_` is a
`OneOrMany<SimpleTypes>`, `additional_properties` is a raw JSON value
re-deserialized on use, and `definitions` is an ordered mapping of names
to schema nodes. -/
inductive Schema where
  | mk
    (ref_ : Option String)
    (type_ : OneOrMany SimpleTypes)
    (properties : List (String × Schema))
    (required : Option (List String))
    (items : List Schema)
    (additional_properties : Option Value)
    (all_of : Option (List Schema))
    (any_of : Option (List Schema))
    (enum_ : Option (List Value))
    («default» : Option Value)
    (description : Option String)
    (definitions : List (String × Schema))
  : Schema

def Schema.ref_ : Schema → Option String
  | .mk r _ _ _ _ _ _ _ _ _ _ _ => r

def Schema.type_ : Schema → OneOrMany SimpleTypes
  | .mk _ t _ _ _ _ _ _ _ _ _ _ => t

def Schema.properties : Schema → List (String × Schema)
  | .mk _ _ p _ _ _ _ _ _ _ _ _ => p

def Schema.required : Schema → Option (List String)
  | .mk _ _ _ r _ _ _ _ _ _ _ _ => r

def Schema.items : Schema → List Schema
  | .mk _ _ _ _ i _ _ _ _ _ _ _ => i

def Schema.additional_properties : Schema → Option Value
  | .mk _ _ _ _ _ a _ _ _ _ _ _ => a

def Schema.all_of : Schema → Option (List Schema)
  | .mk _ _ _ _ _ _ a _ _ _ _ _ => a

def Schema.any_of : Schema → Option (List Schema)
  | .mk _ _ _ _ _ _ _ a _ _ _ _ => a

def Schema.enum_ : Schema → Option (List Value)
  | .mk _ _ _ _ _ _ _ _ e _ _ _ => e

def Schema.default : Schema → Option Value
  | .mk _ _ _ _ _ _ _ _ _ d _ _ => d

def Schema.description : Schema → Option String
  | .mk _ _ _ _ _ _ _ _ _ _ d _ => d

def Schema.definitions : Schema → List (String × Schema)
  | .mk _ _ _ _ _ _ _ _ _ _ _ d => d

mutual

/-- Structural equality on schema nodes (the derived `PartialEq for Schema`):
all twelve fields are compared component-wise. -/
def Schema.beq : Schema → Schema → Bool
  | .mk r1 t1 p1 q1 i1 a1 al1 an1 e1 d1 de1 df1,
    .mk r2 t2 p2 q2 i2 a2 al2 an2 e2 d2 de2 df2 =>
      r1 == r2 && t1 == t2 && Schema.beqProps p1 p2 && q1 == q2 &&
      Schema.beqList i1 i2 && Value.optBeq a1 a2 && Schema.beqOptList al1 al2 &&
      Schema.beqOptList an1 an2 && Value.optListBeq e1 e2 && Value.optBeq d1 d2 &&
      de1 == de2 && Schema.beqProps df1 df2

/-- Entry-wise equality of `BTreeMap<String, Schema>` contents. -/
def Schema.beqProps : List (String × Schema) → List (String × Schema) → Bool
  | [], [] => true
  | (k1, v1) :: xs, (k2, v2) :: ys =>
      k1 == k2 && Schema.beq v1 v2 && Schema.beqProps xs ys
  | _, _ => false

/-- Element-wise equality of `Vec<Schema>`. -/
def Schema.beqList : List Schema → List Schema → Bool
  | [], [] => true
  | x :: xs, y :: ys => Schema.beq x y && Schema.beqList xs ys
  | _, _ => false

/-- Equality of `Option<Vec<Schema>>`. -/
def Schema.beqOptList : Option (List Schema) → Option (List Schema) → Bool
  | none, none => true
  | some a, some b => Schema.beqList a b
  | _, _ => false

end

/-! ### Identifier casing

The pascal-case and snake-case conversions come from the external
`inflector` crate; the spec treats them as pure external collaborators
(§1, §4.1).  They are modelled here from the spec's examples. -/

/-- The ASCII lowercase/uppercase letter pairs used by the case maps. -/
def lowerUpperPairs : List (Char × Char) :=
  [('a', 'A'), ('b', 'B'), ('c', 'C'), ('d', 'D'), ('e', 'E'), ('f', 'F'),
   ('g', 'G'), ('h', 'H'), ('i', 'I'), ('j', 'J'), ('k', 'K'), ('l', 'L'),
   ('m', 'M'), ('n', 'N'), ('o', 'O'), ('p', 'P'), ('q', 'Q'), ('r', 'R'),
   ('s', 'S'), ('t', 'T'), ('u', 'U'), ('v', 'V'), ('w', 'W'), ('x', 'X'),
   ('y', 'Y'), ('z', 'Z')]

/-- ASCII uppercasing of a character; every other character is unchanged. -/
def asciiUpper (c : Char) : Char :=
  ((lowerUpperPairs.find? (fun p => p.1 == c)).map Prod.snd).getD c

/-- ASCII lowercasing of a character; every other character is unchanged. -/
def asciiLower (c : Char) : Char :=
  ((lowerUpperPairs.find? (fun p => p.2 == c)).map Prod.fst).getD c

/-- ASCII letters and digits: the characters that form words during casing. -/
def isAlnumA (c : Char) : Bool :=
  ('0' ≤ c && c ≤ '9') || ('A' ≤ c && c ≤ 'Z') || ('a' ≤ c && c ≤ 'z')

/-- ASCII lowercase letters and digits (a camel-case word may continue). -/
def isLowerOrDigitA (c : Char) : Bool :=
  ('0' ≤ c && c ≤ '9') || ('a' ≤ c && c ≤ 'z')

/-- ASCII uppercase letters. -/
def isUpperA (c : Char) : Bool := 'A' ≤ c && c ≤ 'Z'

/-- Whether the previous character (the head of the reversed accumulator)
lets an uppercase letter start a new camel-case word. -/
def wordBoundary : List Char → Bool
  | p :: _ => isLowerOrDigitA p
  | [] => false

/-- Split a character stream into casing words: non-alphanumeric characters
separate words and are dropped, and an uppercase letter following a
lowercase letter or digit starts a new word.  `acc` holds the current
word reversed. -/
def splitWordsAux : List Char → List Char → List (List Char)
  | [], acc => if acc.isEmpty then [] else [acc.reverse]
  | c :: cs, acc =>
    if !isAlnumA c then
      (if acc.isEmpty then [] else [acc.reverse]) ++ splitWordsAux cs []
    else if isUpperA c && wordBoundary acc then
      acc.reverse :: splitWordsAux cs [c]
    else
      splitWordsAux cs (c :: acc)

/-- Capitalize one casing word: first character uppercased, rest lowercased. -/
def capitalizeWord : List Char → List Char
  | [] => []
  | c :: cs => asciiUpper c :: cs.map asciiLower

/-- Modelled from the spec: `Inflector::to_pascal_case`, the external
pascal-casing collaborator of §4.1 (`toTypeName`): split into words,
capitalize each word, concatenate. -/
def to_pascal_case (s : String) : String :=
  String.mk ((splitWordsAux s.toList []).map capitalizeWord).flatten

/-- Whether the previous character lets an uppercase letter receive an
underscore in snake-casing. -/
def snakeBoundary : Option Char → Bool
  | some p => isLowerOrDigitA p
  | none => false

/-- One step of snake-casing: insert an underscore before an uppercase letter
that follows a lowercase letter or digit, and lowercase every letter;
all other characters (including `$` and `#`) pass through unchanged. -/
def snakeAux : Option Char → List Char → List Char
  | _, [] => []
  | prev, c :: cs =>
    if isUpperA c && snakeBoundary prev then
      '_' :: asciiLower c :: snakeAux (some c) cs
    else
      asciiLower c :: snakeAux (some c) cs

/-- Modelled from the spec: `Inflector::to_snake_case`, the external
snake-casing collaborator of §4.1 (`toFieldName`). -/
def to_snake_case (s : String) : String :=
  String.mk (snakeAux none s.toList)

/-! ### Token streams

A `quote!` invocation is modelled as the list of its literal chunks, in
source order, with interpolated values spliced in between.  `Ident(s)`
contributes the raw string `s` as one element; a `#s` interpolation of a
`&str` contributes a Rust string-literal token. -/

abbrev Tokens := List String

/-- The token contributed by interpolating a `&str` (a string literal). -/
def quoteStr (s : String) : String := String.mk ('"' :: (s.toList ++ ['"']))

/-- `rename_keyword`: if `s` is one of the reserved words `type`, `struct`,
`enum`, emit a serde rename annotation followed by the prefix and the
underscore-suffixed identifier; otherwise signal no rename is needed. -/
def rename_keyword (pfx : String) (s : String) : Option Tokens :=
  if ["type", "struct", "enum"].any (fun keyword => keyword == s) then
    some ["#[serde(rename =", quoteStr s, ")]", pfx, s ++ "_"]
  else
    none

/-- Remove every occurrence of character `c` (Rust `str::replace(c, "")`). -/
def stripChar (c : Char) (s : String) : String :=
  String.mk (s.toList.filter (fun d => d ≠ c))

/-- `field`: turn a raw schema property key into the tokens declaring the
corresponding struct member name (with a serde rename annotation when the
identifier diverges from the raw key). -/
def field (s : String) : Tokens :=
  match rename_keyword "pub" s with
  | some t => t
  | none =>
    let snake := to_snake_case s
    if snake != s || snake.toList.any (fun c => c == '$' || c == '#') then
      let fieldIdent := if snake == "$ref" then "ref_" else stripChar '#' (stripChar '$' snake)
      ["#[serde(rename =", quoteStr s, ")]", "pub", fieldIdent]
    else
      ["pub", s]

/-! ### Schema merging (`allOf`) -/

/-- `merge_option`: if both sides are set, combine them with `f`; if only the
source is set, copy it; otherwise keep the target. -/
def merge_option {α : Type} (result : Option α) (r : Option α) (f : α → α → α) : Option α :=
  match result, r with
  | some a, some b => some (f a b)
  | none, some b => some b
  | res, none => res

mutual

/-- `merge_all_of`: fold the source schema `r` into the target: properties are
merged entry-wise (recursively when a key exists on both sides), `ref` and
`description` are overwritten when the source sets them, `required` lists are
combined, and the declared type list keeps only entries also declared by the
source.  All other fields keep the target's values. -/
def merge_all_of : Schema → Schema → Schema
  | .mk tref ttype tprops treq titems tap tall tany tenum tdefault tdesc tdefs,
    .mk rref rtype rprops rreq _ritems _rap _rall _rany _renum _rdefault rdesc _rdefs =>
      Schema.mk
        (match rref with | some x => some x | none => tref)
        (OneOrMany.many ((OneOrMany.asVec ttype).filter
          (fun e => (OneOrMany.toList rtype).contains e)))
        (mergeProps tprops rprops)
        (merge_option treq rreq (fun required r_required => required ++ r_required))
        titems tap tall tany tenum tdefault
        (match rdesc with | some x => some x | none => tdesc)
        tdefs

/-- The property-map merge loop: each source entry is inserted when its key is
vacant and merged recursively when it is occupied. -/
def mergeProps : List (String × Schema) → List (String × Schema) → List (String × Schema)
  | tprops, [] => tprops
  | tprops, (k, v) :: rest =>
      let tprops' :=
        if tprops.any (fun p => p.1 == k) then
          tprops.map (fun p => if p.1 == k then (p.1, merge_all_of p.2 v) else p)
        else
          tprops ++ [(k, v)]
      mergeProps tprops' rest

end

/-! ### Panics and the reference resolver -/

/-- A fatal outcome of the expansion engine: `panic` models a Rust panic with
its message; `outOfFuel` is the embedding's marker for recursion that the
Rust code would perform without bound (cyclic references). -/
inductive ExpandError where
  | panic (msg : String)
  | outOfFuel
deriving DecidableEq, Repr

/-- The Rust panic message of an out-of-bounds `[0]` index on an empty slice. -/
def indexOobMsg : String := "index out of bounds: the len is 0 but the index is 0"

/-- The Rust panic message of `.unwrap()` on an `Err` value. -/
def unwrapErrMsg : String := "called `Result::unwrap()` on an `Err` value"

/-- The segment loop of Rust `str::split(sep)`: `acc` holds the current
segment reversed; a separator closes the current segment. -/
def splitCharGo (sep : Char) : List Char → List Char → List String
  | [], acc => [String.mk acc.reverse]
  | c :: cs, acc =>
    if c = sep then String.mk acc.reverse :: splitCharGo sep cs []
    else splitCharGo sep cs (c :: acc)

/-- Rust `str::split(sep)` for a character separator: the empty string yields
one empty segment, and each separator occurrence closes a segment. -/
def splitChar (sep : Char) (s : String) : List String :=
  splitCharGo sep s.toList []

/-- `Expander::type_ref`: `#` names the root type (panics when no root name
was supplied); any other reference is pascal-cased from its last segment. -/
def type_ref (rootName : Option String) (s : String) : Except ExpandError String :=
  if s == "#" then
    match rootName with
    | some name => .ok (to_pascal_case name)
    | none => .error (.panic "Root name")
  else
    match (splitChar '/' s).getLast? with
    | some comp => .ok (to_pascal_case comp)
    | none => .error (.panic "Component")

/-- Lookup in a `definitions` mapping. -/
def lookupDef (defs : List (String × Schema)) (k : String) : Option Schema :=
  (defs.find? (fun p => p.1 == k)).map Prod.snd

/-- `Expander::schema_ref`: fold the slash-separated segments of a reference
starting at the root; `#` jumps back to the root, `definitions` keeps the
current node, anything else is looked up in the current node's definitions
and panics when absent. -/
def schema_ref (root : Schema) (s : String) : Except ExpandError Schema :=
  (splitChar '/' s).foldlM
    (fun schema comp =>
      if comp == "#" then .ok root
      else if comp == "definitions" then .ok schema
      else
        match lookupDef schema.definitions comp with
        | some v => .ok v
        | none => .error (.panic ("Expected definition: `" ++ s ++ "` " ++ comp)))
    root

/-- `Expander::schema`: follow the node's `ref`, then, when the result has a
non-empty `all_of`, resolve the first component as the seed and fold every
further component into it with `merge_all_of`.  The fuel bounds the
resolution chains that Rust follows without bound. -/
def resolveSchema (root : Schema) : Nat → Schema → Except ExpandError Schema
  | 0, _ => .error .outOfFuel
  | fuel + 1, schema => do
    let schema1 ← match schema.ref_ with
      | some r => schema_ref root r
      | none => pure schema
    match schema1.all_of with
    | some (a0 :: rest) => do
        let seed ← resolveSchema root fuel a0
        rest.foldlM
          (fun result d => do
            let rd ← resolveSchema root fuel d
            pure (merge_all_of result rd))
          seed
    | _ => pure schema1

/-! ### Re-deserializing a schema from a raw JSON value

`expand_type_` re-deserializes the raw `additional_properties` value into a
schema node via `serde_json::from_value::<Schema>(..).unwrap()`.  The serde
implementation lives in the generated `src/schema.rs`, which is not among
the sources, so it is modelled from the spec's data model (§3). -/

/-- Parse a JSON Schema simple type name. -/
def simpleTypeFromString : String → Option SimpleTypes
  | "array" => some .array
  | "boolean" => some .boolean
  | "integer" => some .integer
  | "null" => some .null
  | "number" => some .number
  | "object" => some .object
  | "string" => some .string
  | _ => none

/-- Lookup of a key in a JSON object's fields. -/
def lookupVal (fields : List (String × Value)) (k : String) : Option Value :=
  (fields.find? (fun p => p.1 == k)).map Prod.snd

/-- Parse an optional string-valued field (`Option<String>` deserialization):
absent means `None`, a string means `Some`, anything else is an error. -/
def parseOptString (fields : List (String × Value)) (k : String) :
    Except ExpandError (Option String) :=
  match lookupVal fields k with
  | none => pure none
  | some (.str s) => pure (some s)
  | some _ => .error (.panic unwrapErrMsg)

/-- Parse one simple type name. -/
def parseSimpleType (x : Value) : Except ExpandError SimpleTypes :=
  match x with
  | .str s =>
    match simpleTypeFromString s with
    | some t => pure t
    | none => .error (.panic unwrapErrMsg)
  | _ => .error (.panic unwrapErrMsg)

/-- Parse the `type` field (`OneOrMany<SimpleTypes>` deserialization):
absent defaults to `Many([])`, a single name becomes `One`, a list becomes
`Many`. -/
def parseType (fields : List (String × Value)) :
    Except ExpandError (OneOrMany SimpleTypes) :=
  match lookupVal fields "type" with
  | none => pure (OneOrMany.many [])
  | some (.str s) =>
    match simpleTypeFromString s with
    | some t => pure (OneOrMany.one t)
    | none => .error (.panic unwrapErrMsg)
  | some (.arr xs) => do
    let ts ← xs.mapM parseSimpleType
    pure (OneOrMany.many ts)
  | some _ => .error (.panic unwrapErrMsg)

/-- Parse the `required` field: an optional array of strings. -/
def parseRequired (fields : List (String × Value)) :
    Except ExpandError (Option (List String)) :=
  match lookupVal fields "required" with
  | none => pure none
  | some (.arr xs) => do
    let ss ← xs.mapM (fun x =>
      match x with
      | .str s => pure s
      | _ => .error (.panic unwrapErrMsg))
    pure (some ss)
  | some _ => .error (.panic unwrapErrMsg)

/-- Parse a named sub-mapping of schemas (`properties`, `definitions`);
`sf` deserializes each entry. -/
def parseProps (sf : Value → Except ExpandError Schema)
    (fields : List (String × Value)) (k : String) :
    Except ExpandError (List (String × Schema)) :=
  match lookupVal fields k with
  | none => pure []
  | some (.obj props) => props.mapM (fun p => do pure (p.1, ← sf p.2))
  | some _ => .error (.panic unwrapErrMsg)

/-- Parse the `items` field: absent defaults to the empty list, a list is
element-wise, and a single schema becomes a one-element list. -/
def parseItems (sf : Value → Except ExpandError Schema)
    (fields : List (String × Value)) : Except ExpandError (List Schema) :=
  match lookupVal fields "items" with
  | none => pure []
  | some (.arr xs) => xs.mapM sf
  | some x => do pure [← sf x]

/-- Parse an optional list of schemas (`allOf`, `anyOf`). -/
def parseSchemaListOpt (sf : Value → Except ExpandError Schema)
    (fields : List (String × Value)) (k : String) :
    Except ExpandError (Option (List Schema)) :=
  match lookupVal fields k with
  | none => pure none
  | some (.arr xs) => do pure (some (← xs.mapM sf))
  | some _ => .error (.panic unwrapErrMsg)

/-- Parse the `enum` field: an optional array of literal values. -/
def parseEnum (fields : List (String × Value)) :
    Except ExpandError (Option (List Value)) :=
  match lookupVal fields "enum" with
  | none => pure none
  | some (.arr xs) => pure (some xs)
  | some _ => .error (.panic unwrapErrMsg)

/-- Modelled from the spec: deserialization of a schema node (§3) from a raw
JSON value, as performed by the generated `Schema: Deserialize` impl that is
absent from the sources.  A non-object value, or a field of the wrong shape,
is a deserialization error (the caller's `.unwrap()` then panics); absent
fields take their defaults (`None`, empty list, `Many([])`).  `type` and
`items` accept both a single entry and a list of entries. -/
def schemaFromValue : Nat → Value → Except ExpandError Schema
  | 0, _ => .error .outOfFuel
  | fuel + 1, v =>
    match v with
    | .obj fields => do
      let ref_ ← parseOptString fields "$ref"
      let type_ ← parseType fields
      let properties ← parseProps (schemaFromValue fuel) fields "properties"
      let required ← parseRequired fields
      let items ← parseItems (schemaFromValue fuel) fields
      let all_of ← parseSchemaListOpt (schemaFromValue fuel) fields "allOf"
      let any_of ← parseSchemaListOpt (schemaFromValue fuel) fields "anyOf"
      let enum_ ← parseEnum fields
      let description ← parseOptString fields "description"
      let definitions ← parseProps (schemaFromValue fuel) fields "definitions"
      pure (Schema.mk ref_ type_ properties required items
        (lookupVal fields "additionalProperties") all_of any_of enum_
        (lookupVal fields "default") description definitions)
    | _ => .error (.panic unwrapErrMsg)

/-! ### The type expander

`needs_one_or_many` is the expander's only mutable state; it is threaded
explicitly as a `Bool` through every function (`noom` in, `noom` out). -/

/-- The result of expanding one schema node: the Rust type expression and
whether that type carries an implicit default value. -/
structure FieldType where
  typ : String
  «default» : Bool
deriving DecidableEq, Repr

/-- `impl From<S: Into<String>> for FieldType`: a bare type name with no
implicit default. -/
def FieldType.ofString (s : String) : FieldType := ⟨s, false⟩

/-- `Expander::expand_type_`: the inner type inference.  Branch order follows
the source: a set `ref` wins; then a two-element `any_of` is tested for the
one-or-many pattern (any other two-element shape falls back to
`serde_json::Value`); then a single declared type selects the primitive,
map, or sequence translation; everything else is `serde_json::Value`. -/
def expand_type_ (root : Schema) (rootName : Option String) :
    Nat → Schema → Bool → Except ExpandError (FieldType × Bool)
  | 0, _, _ => .error .outOfFuel
  | fuel + 1, typ, noom =>
    match typ.ref_ with
    | some r =>
      match type_ref rootName r with
      | .ok name => .ok (FieldType.ofString name, noom)
      | .error e => .error e
    | none =>
      match typ.any_of with
      | some [a0, a1] =>
        match resolveSchema root fuel a0 with
        | .error e => .error e
        | .ok simple =>
          match resolveSchema root fuel a1 with
          | .error e => .error e
          | .ok array =>
            match (OneOrMany.toList array.type_).head? with
            | none => .error (.panic indexOobMsg)
            | some t0 =>
              if t0 == SimpleTypes.array then
                match array.items.head? with
                | none => .error (.panic indexOobMsg)
                | some item0 =>
                  match resolveSchema root fuel item0 with
                  | .error e => .error e
                  | .ok ritem =>
                    if Schema.beq simple ritem then
                      match expand_type_ root rootName fuel a0 true with
                      | .error e => .error e
                      | .ok (inner, noom') =>
                        .ok (⟨"OneOrMany<" ++ inner.typ ++ ">", true⟩, noom')
                    else
                      .ok (FieldType.ofString "serde_json::Value", noom)
              else
                .ok (FieldType.ofString "serde_json::Value", noom)
      | _ =>
        match (OneOrMany.toList typ.type_) with
        | [t] =>
          match t with
          | .string =>
            if (typ.enum_.map List.isEmpty).getD false then
              .ok (FieldType.ofString "serde_json::Value", noom)
            else
              .ok (FieldType.ofString "String", noom)
          | .integer => .ok (FieldType.ofString "i64", noom)
          | .boolean => .ok (FieldType.ofString "bool", noom)
          | .number => .ok (FieldType.ofString "f64", noom)
          | .object =>
            match typ.additional_properties with
            | some ap =>
              match schemaFromValue fuel ap with
              | .error e => .error e
              | .ok prop =>
                match expand_type_ root rootName fuel prop noom with
                | .error e => .error e
                | .ok (inner, noom') =>
                  .ok (⟨"::std::collections::BTreeMap<String, " ++ inner.typ ++ ">",
                        Value.optBeq typ.default (some (Value.obj []))⟩, noom')
            | none => .ok (FieldType.ofString "serde_json::Value", noom)
          | .array =>
            match typ.items.head? with
            | some item =>
              match expand_type_ root rootName fuel item noom with
              | .error e => .error e
              | .ok (inner, noom') =>
                .ok (FieldType.ofString ("Vec<" ++ inner.typ ++ ">"), noom')
            | none => .ok (FieldType.ofString "Vec<serde_json::Value>", noom)
          | _ => .ok (FieldType.ofString "serde_json::Value", noom)
        | _ => .ok (FieldType.ofString "serde_json::Value", noom)

/-- `Expander::expand_type`: the field-level wrapper — box a self-referential
type, then wrap in `Option` when the field is not required and its type has
no implicit default. -/
def expand_type (root : Schema) (rootName : Option String) (fuel : Nat)
    (type_name : String) (required : Bool) (typ : Schema) (noom : Bool) :
    Except ExpandError (FieldType × Bool) :=
  match expand_type_ root rootName fuel typ noom with
  | .error e => .error e
  | .ok (result, noom') =>
    let result :=
      if type_name == result.typ then
        { result with typ := "Box<" ++ result.typ ++ ">" }
      else result
    let result :=
      if !required && !result.default then
        { result with typ := "Option<" ++ result.typ ++ ">" }
      else result
    .ok (result, noom')

/-! ### Doc comments -/

def LINE_LENGTH : Nat := 100

def INDENT_LENGTH : Nat := 4

/-- The word-wrapping loop of `make_doc_comment`, over character lists.  Each
iteration consumes the leading whitespace-free word plus at most one
following character, so `comment.length + 2` fuel always suffices. -/
def mdcGo (remaining_line : Nat) : Nat → List Char → Nat → List Char → List Char
  | 0, _, _, out => out
  | fuel + 1, comment, length, out =>
    if comment.isEmpty then out
    else
      let word := comment.takeWhile (fun c => !c.isWhitespace)
      let comment := comment.drop word.length
      let (out, length) :=
        if length + word.length ≥ remaining_line then (out ++ "\n/// ".toList, 4)
        else (out, length)
      let out := out ++ word
      let length := length + word.length
      match comment with
      | '\n' :: rest => mdcGo remaining_line fuel rest 4 (out ++ "\n".toList ++ "/// ".toList)
      | _ :: rest => mdcGo remaining_line fuel rest (length + 1) (out ++ " ".toList)
      | [] => mdcGo remaining_line fuel [] length out

/-- `make_doc_comment`: wrap a description into `///` comment lines of at most
`remaining_line` characters (the trailing space, if any, is popped, and a
final newline appended). -/
def make_doc_comment (comment : String) (remaining_line : Nat) : String :=
  let out := mdcGo remaining_line (comment.length + 2) comment.toList 4 "/// ".toList
  let out := if out.getLast? == some ' ' then out.dropLast else out
  String.mk (out ++ ['\n'])

/-! ### Field and declaration emission -/

/-- Rust `str::starts_with` on string patterns. -/
def strStartsWith (s : String) (p : String) : Bool :=
  p.toList.isPrefixOf s.toList

/-- The field-emission loop of `FieldExpander::expand_fields`: walk the
resolved schema's properties in order, emitting `#comment #default #key :
#typ` tokens per field and clearing the all-fields-defaultable flag whenever
a field's type is not `Option<..>`-wrapped. -/
def expandFieldsGo (root : Schema) (rootName : Option String) (fuel : Nat)
    (type_name : String) (requiredList : List String) :
    List (String × Schema) → Bool → Bool → Except ExpandError (List Tokens × Bool × Bool)
  | [], dflt, noom => .ok ([], dflt, noom)
  | (field_name, value) :: rest, dflt, noom =>
    let key := field field_name
    let required := requiredList.any (fun req => req == field_name)
    match expand_type root rootName fuel type_name required value noom with
    | .error e => .error e
    | .ok (field_type, noom1) =>
      let dflt1 := if !strStartsWith field_type.typ "Option<" then false else dflt
      let defaultAttr : Tokens := if field_type.default then ["#[serde(default)]"] else []
      let comment : Tokens :=
        match value.description with
        | some c => [make_doc_comment c (LINE_LENGTH - INDENT_LENGTH)]
        | none => []
      let tok : Tokens := comment ++ defaultAttr ++ key ++ [":"] ++ [field_type.typ]
      match expandFieldsGo root rootName fuel type_name requiredList rest dflt1 noom1 with
      | .error e => .error e
      | .ok (toks, dflt2, noom2) => .ok (tok :: toks, dflt2, noom2)

/-- `FieldExpander::expand_fields`: resolve the schema (refs and `allOf`),
then emit one member per property.  Returns the member token lists, the
all-fields-defaultable flag (initially true), and the threaded
one-or-many flag. -/
def expand_fields (root : Schema) (rootName : Option String) (fuel : Nat)
    (type_name : String) (schema : Schema) (noom : Bool) :
    Except ExpandError (List Tokens × Bool × Bool) :=
  match resolveSchema root fuel schema with
  | .error e => .error e
  | .ok resolved =>
    expandFieldsGo root rootName fuel type_name (resolved.required.getD [])
      resolved.properties true noom

def deriveAttr : String := "#[derive(Clone, PartialEq, Debug, Deserialize, Serialize)]"

def deriveDefaultAttr : String := "#[derive(Clone, PartialEq, Debug, Default, Deserialize, Serialize)]"

/-- `#(#xs),*`: splice token lists separated by commas. -/
def sepByComma (ts : List Tokens) : Tokens := (ts.intersperse [","]).flatten

/-- One enum variant: the pascal-cased literal (underscore-suffixed via
`rename_keyword` when it collides with a reserved word), preceded by a serde
rename annotation when pascal-casing altered the literal.  A non-string
literal panics. -/
def variantTokens (v : Value) : Except ExpandError Tokens :=
  match v with
  | .str s =>
    let pascal_case_variant := to_pascal_case s
    let variant_name := (rename_keyword "" pascal_case_variant).getD [pascal_case_variant]
    if pascal_case_variant == s then
      .ok variant_name
    else
      .ok (["#[serde(rename =", quoteStr s, ")]"] ++ variant_name)
  | _ => .error (.panic "Expected string")

/-- Wrap a declaration in a serde rename annotation when pascal-casing changed
the original name. -/
def wrapRename (original_name : String) (pascal : String) (type_decl : Tokens) : Tokens :=
  if original_name == pascal then type_decl
  else ["#[serde(rename =", quoteStr original_name, ")]"] ++ type_decl

/-- `Expander::expand_schema`: a schema with fields becomes a struct (with
`Default` derived when every field ended up `Option`-wrapped); otherwise a
non-empty `enum` list becomes an enum; otherwise the schema is expanded as a
bare type alias (which returns early, skipping the rename wrapper). -/
def expand_schema (root : Schema) (rootName : Option String) (fuel : Nat)
    (original_name : String) (schema : Schema) (noom : Bool) :
    Except ExpandError (Tokens × Bool) :=
  match expand_fields root rootName fuel original_name schema noom with
  | .error e => .error e
  | .ok (fields, dflt, noom1) =>
    let pascal_case_name := to_pascal_case original_name
    if !fields.isEmpty then
      let type_decl :=
        [if dflt then deriveDefaultAttr else deriveAttr] ++
        ["pub struct", pascal_case_name, "\x7b"] ++ sepByComma fields ++ ["\x7d"]
      .ok (wrapRename original_name pascal_case_name type_decl, noom1)
    else if (schema.enum_.map (fun e => !e.isEmpty)).getD false then
      match (schema.enum_.getD []).mapM variantTokens with
      | .error e => .error e
      | .ok variants =>
        let type_decl :=
          [deriveAttr] ++ ["pub enum", pascal_case_name, "\x7b"] ++
          sepByComma variants ++ ["\x7d"]
        .ok (wrapRename original_name pascal_case_name type_decl, noom1)
    else
      match expand_type root rootName fuel "" true schema noom1 with
      | .error e => .error e
      | .ok (ft, noom2) =>
        .ok (["pub type", pascal_case_name, "=", ft.typ, ";"], noom2)

/-- The loop of `Expander::expand_definitions`: one declaration per
`definitions` entry, in order, each preceded by a doc comment block when the
definition carries a description. -/
def expandDefsGo (root : Schema) (rootName : Option String) (fuel : Nat) :
    List (String × Schema) → Bool → Except ExpandError (List Tokens × Bool)
  | [], noom => .ok ([], noom)
  | (name, d) :: rest, noom =>
    match expand_schema root rootName fuel name d noom with
    | .error e => .error e
    | .ok (type_decl, noom1) =>
      let entry :=
        match d.description with
        | some comment => [make_doc_comment comment LINE_LENGTH] ++ type_decl
        | none => type_decl
      match expandDefsGo root rootName fuel rest noom1 with
      | .error e => .error e
      | .ok (toks, noom2) => .ok (entry :: toks, noom2)

/-- `Expander::expand_definitions`. -/
def expand_definitions (root : Schema) (rootName : Option String) (fuel : Nat)
    (schema : Schema) (noom : Bool) : Except ExpandError (List Tokens × Bool) :=
  expandDefsGo root rootName fuel schema.definitions noom

/-- The `ONE_OR_MANY` helper source text prepended to the output when the
one-or-many pattern was used (appended as a single raw token). -/
def ONE_OR_MANY : String := "
use std::ops::\x7bDeref, DerefMut\x7d;

\x23[derive(Clone, PartialEq, Debug)]
pub enum OneOrMany<T> \x7b
    One(Box<T>),
    Many(Vec<T>),
\x7d

impl<T> Deref for OneOrMany<T> \x7b
    type Target = [T];
    fn deref(&self) -> &[T] \x7b
        match *self \x7b
            OneOrMany::One(ref v) => unsafe \x7b ::std::slice::from_raw_parts(&**v, 1) \x7d,
            OneOrMany::Many(ref v) => v,
        \x7d
    \x7d
\x7d

impl<T> DerefMut for OneOrMany<T> \x7b
    fn deref_mut(&mut self) -> &mut [T] \x7b
        match *self \x7b
            OneOrMany::One(ref mut v) => unsafe \x7b ::std::slice::from_raw_parts_mut(&mut **v, 1) \x7d,
            OneOrMany::Many(ref mut v) => v,
        \x7d
    \x7d
\x7d

impl<T> Default for OneOrMany<T> \x7b
    fn default() -> OneOrMany<T> \x7b
        OneOrMany::Many(Vec::new())
    \x7d
\x7d

impl<T> serde::Deserialize for OneOrMany<T>
    where T: serde::Deserialize
\x7b
    fn deserialize<D>(deserializer: &mut D) -> Result<Self, D::Error>
        where D: serde::Deserializer
    \x7b
        T::deserialize(deserializer)
            .map(|one| OneOrMany::One(Box::new(one)))
            .or_else(|_| Vec::<T>::deserialize(deserializer).map(OneOrMany::Many))
    \x7d
\x7d

impl<T> serde::Serialize for OneOrMany<T>
    where T: serde::Serialize
\x7b
    fn serialize<S>(&self, serializer: &mut S) -> Result<(), S::Error>
        where S: serde::Serializer
    \x7b
        match *self \x7b
            OneOrMany::One(ref one) => one.serialize(serializer),
            OneOrMany::Many(ref many) => many.serialize(serializer),
        \x7d
    \x7d
\x7d
"

/-- The `types` vector accumulated by `Expander::expand`: the definitions'
declarations followed by the root schema's declaration when a root name was
supplied. -/
def expandTypes (root : Schema) (rootName : Option String) (fuel : Nat)
    (schema : Schema) (noom : Bool) : Except ExpandError (List Tokens × Bool) :=
  match expand_definitions root rootName fuel schema noom with
  | .error e => .error e
  | .ok (types, noom1) =>
    match rootName with
    | some name =>
      match expand_schema root rootName fuel name schema noom1 with
      | .error e => .error e
      | .ok (d, noom2) => .ok (types ++ [d], noom2)
    | none => .ok (types, noom1)

/-- `Expander::expand`: render the accumulated declarations, prefixed by the
one-or-many helper text when the flag was set (by the empty token
otherwise). -/
def expand (root : Schema) (rootName : Option String) (fuel : Nat)
    (schema : Schema) (noom : Bool) : Except ExpandError (Tokens × Bool) :=
  match expandTypes root rootName fuel schema noom with
  | .error e => .error e
  | .ok (types, noom1) =>
    let one_or_many := if noom1 then ONE_OR_MANY else ""
    .ok ([one_or_many] ++ types.flatten, noom1)

/-- Run a whole expansion as `generate` does: `Expander::new` starts with the
parsed document as root and the flag cleared, and `expand` is called on that
same document. -/
def runExpand (rootName : Option String) (fuel : Nat) (schema : Schema) :
    Except ExpandError (Tokens × Bool) :=
  expand schema rootName fuel schema false

/-! ### The `generate` entry point

`generate` parses the schema text, expands it, pipes the tokens through the
external `rustfmt` process and returns its output.  Text parsing and the
child process are external collaborators; their outcomes are supplied as
explicit parameters. -/

/-- The possible outcomes of the external interactions inside `generate`:
whether `rustfmt` spawned, whether writing to and waiting on it succeeded,
whether it exited successfully, and its standard output (`none` standing
for bytes that are not valid UTF-8). -/
structure FormatterEnv where
  spawnOk : Bool
  writeOk : Bool
  waitOk : Bool
  statusSuccess : Bool
  stdoutUtf8 : Option String
deriving DecidableEq, Repr

/-- The observable outcome of `generate`: a panic (process abort), an `Err`
return value, a successful return, or fuel exhaustion of the embedding. -/
inductive GenResult where
  | panicked (msg : String)
  | err (msg : String)
  | ok (out : String)
  | fuelOut
deriving DecidableEq, Repr

/-- `generate`: an unparsable schema text (`parsed = none`) panics at
`from_str(..).unwrap()`; spawn, write and wait failures return `Err` via
`try!`; a formatter exit with non-success status panics at the `assert!`;
non-UTF-8 formatter output returns `Err`. -/
def generate (env : FormatterEnv) (parsed : Option Schema)
    (root_name : Option String) (fuel : Nat) : GenResult :=
  match parsed with
  | none => .panicked unwrapErrMsg
  | some schema =>
    match runExpand root_name fuel schema with
    | .error .outOfFuel => .fuelOut
    | .error (.panic m) => .panicked m
    | .ok _ =>
      if !env.spawnOk then .err "io error: failed to spawn rustfmt"
      else if !env.writeOk then .err "io error: failed to write to rustfmt"
      else if !env.waitOk then .err "io error: failed to wait on rustfmt"
      else if !env.statusSuccess then
        .panicked "assertion failed: output.status.success()"
      else
        match env.stdoutUtf8 with
        | none => .err "invalid utf-8 sequence"
        | some out => .ok out

/-! ### Spec-side definitions and concrete inputs used by the claims -/

/-- The schema node with every attribute at its default (the deserialization
of `{}`). -/
def Schema.empty : Schema :=
  .mk none (.many []) [] none [] none none none none none none []

/-- Replace a node's `any_of` attribute (used to state that an `any_of` list
of the wrong length is ignored by the expander). -/
def Schema.withAnyOf : Schema → Option (List Schema) → Schema
  | .mk r t p q i a al _ e d de df, an => .mk r t p q i a al an e d de df

/-- The reference-resolution step exactly as the spec §4.2 words it: segment
`#` always jumps back to the root, segment `definitions` keeps the current
node, and any other segment looks that name up in the current node's
definitions mapping, failing fatally when it is absent. -/
def specResolveStep (root : Schema) (wholeRef : String) (schema : Schema)
    (comp : String) : Except ExpandError Schema :=
  if comp == "#" then .ok root
  else if comp == "definitions" then .ok schema
  else
    match lookupDef schema.definitions comp with
    | some v => .ok v
    | none => .error (.panic ("Expected definition: `" ++ wholeRef ++ "` " ++ comp))

/-- The resolution algorithm as the spec §4.2 words it: split the reference
on `/` and fold the steps starting at the root. -/
def specResolveRef (root : Schema) (s : String) : Except ExpandError Schema :=
  (splitChar '/' s).foldlM (specResolveStep root s) root

/-- The enum-variant tokens as the (amended) claim words them: the
pascal-cased literal (underscore-suffixed when it collides with a reserved
word), preceded by a rename annotation recording the literal exactly when
pascal-casing altered it. -/
def specVariantTokens (s : String) : Tokens :=
  (if to_pascal_case s == s then [] else ["#[serde(rename =", quoteStr s, ")]"]) ++
  ((rename_keyword "" (to_pascal_case s)).getD [to_pascal_case s])

/-- `toks` is the emitted declaration for the `definitions` entry `entry`:
the declaration produced by `expand_schema` for that name and node, preceded
by a doc-comment block when the node carries a description. -/
def DeclOf (root : Schema) (rootName : Option String) (fuel : Nat)
    (entry : String × Schema) (toks : Tokens) : Prop :=
  ∃ noomIn noomOut decl,
    expand_schema root rootName fuel entry.1 entry.2 noomIn = .ok (decl, noomOut) ∧
    toks = (match entry.2.description with
            | some c => [make_doc_comment c LINE_LENGTH] ++ decl
            | none => decl)

/-- `{"type": "string"}`. -/
def strSchema : Schema :=
  .mk none (.many [.string]) [] none [] none none none none none none []

/-- `{"type": "array", "items": [{"type": "string"}]}`. -/
def arrOfStrSchema : Schema :=
  .mk none (.many [.array]) [] none [strSchema] none none none none none none []

/-- The one-or-many idiom: `{"anyOf": [{"type": "string"}, {"type": "array",
"items": [{"type": "string"}]}]}`. -/
def oneOrManySchema : Schema :=
  .mk none (.many []) [] none [] none none (some [strSchema, arrOfStrSchema])
    none none none []

/-- An `anyOf` with three branches on a node declaring `"type": "integer"`. -/
def anyOfThreeSchema : Schema :=
  .mk none (.many [.integer]) [] none [] none none
    (some [strSchema, strSchema, strSchema]) none none none []

/-- A node with both `$ref` and a declared `integer` type. -/
def refAndIntSchema : Schema :=
  .mk (some "x") (.many [.integer]) [] none [] none none none none none none []

/-- A two-branch `anyOf` whose branches are empty schemas (no declared
type).  Indexing `array.type_[0]` in the pattern check panics on it. -/
def anyOfEmptyPairSchema : Schema :=
  .mk none (.many []) [] none [] none none (some [Schema.empty, Schema.empty])
    none none none []

/-- A document whose single definition has a property field carrying the
empty-branch `anyOf` of `anyOfEmptyPairSchema`. -/
def anyOfEmptyPairDoc : Schema :=
  .mk none (.many []) [] none [] none none none none none none
    [("a", .mk none (.many []) [("f", anyOfEmptyPairSchema)] none [] none none
        none none none none [])]

/-- A schema whose `required` list is `["a"]`. -/
def requiredASchema : Schema :=
  .mk none (.many []) [] (some ["a"]) [] none none none none none none []

/-- A schema whose `required` list is `["b"]`. -/
def requiredBSchema : Schema :=
  .mk none (.many []) [] (some ["b"]) [] none none none none none none []

/-- A schema declaring `"type": "string"` only (as a type list). -/
def typeStrSchema : Schema :=
  .mk none (.many [.string]) [] none [] none none none none none none []

/-- A schema declaring `"type": ["string", "integer"]`. -/
def typeStrIntSchema : Schema :=
  .mk none (.many [.string, .integer]) [] none [] none none none none none none []

/-- `{"enum": ["foo", "FooBar"]}`. -/
def enumFooSchema : Schema :=
  .mk none (.many []) [] none [] none none none
    (some [.str "foo", .str "FooBar"]) none none []

/-- `{"enum": ["$schema"]}`. -/
def enumDollarSchema : Schema :=
  .mk none (.many []) [] none [] none none none (some [.str "$schema"]) none none []

/-- A document with two definitions (in document order `b`, `a`) and root
properties, used to exercise declaration ordering. -/
def twoDefsDoc : Schema :=
  .mk none (.many []) [("p", strSchema)] none [] none none none none none none
    [("b", strSchema), ("a", enumDollarSchema)]

/-- A document with one definition `a` and a root-level `#/definitions/a`
reference. -/
def refDoc : Schema :=
  .mk none (.many []) [] none [] none none none none none none
    [("a", typeStrSchema)]

/-- `{"type": "integer"}`. -/
def typeIntSchema : Schema :=
  .mk none (.many [.integer]) [] none [] none none none none none none []

/-- `{"type": "object", "additionalProperties": {"type": "integer"},
"default": {}}`. -/
def mapIntSchema : Schema :=
  .mk none (.many [.object]) [] none []
    (some (.obj [("type", .str "integer")])) none none none
    (some (.obj [])) none []

/-- The causes a fatal abort of the expansion can have: the embedding's fuel
marker (a reference cycle the Rust code would follow without bound), a `#`
type-name request without a root name, the (unreachable) empty-split marker,
a non-string enum literal, a slice `[0]` index on an empty list, a failed
`from_value::<Schema>(..).unwrap()`, or an unresolvable reference. -/
def FatalCause (e : ExpandError) : Prop :=
  e = .outOfFuel ∨
  e = .panic "Root name" ∨
  e = .panic "Component" ∨
  e = .panic "Expected string" ∨
  e = .panic indexOobMsg ∨
  e = .panic unwrapErrMsg ∨
  ∃ s comp, e = .panic ("Expected definition: `" ++ s ++ "` " ++ comp)

/-! ## Theorems -/

/-- C2: after `merge(target, source)`, the merged `required` holds exactly the
union of the two `required` sets (an absent list counting as empty), and the
merged `type` list keeps exactly the entries of the target's list that the
source also declares; in particular required `{a}` merged with `{b}` is
`{a, b}`, and types `[string]` merged with `[string, integer]` give
`[string]`. -/
theorem merge_required_union_type_intersection :
    (∀ t s : Schema, ∀ x : String,
      x ∈ (merge_all_of t s).required.getD [] ↔
        x ∈ t.required.getD [] ∨ x ∈ s.required.getD []) ∧
    (∀ t s : Schema,
      (merge_all_of t s).type_ =
        .many ((OneOrMany.toList t.type_).filter
          (fun e => (OneOrMany.toList s.type_).contains e))) ∧
    (∀ t s : Schema, ∀ e : SimpleTypes,
      e ∈ OneOrMany.toList (merge_all_of t s).type_ ↔
        e ∈ OneOrMany.toList t.type_ ∧ e ∈ OneOrMany.toList s.type_) ∧
    (merge_all_of requiredASchema requiredBSchema).required = some ["a", "b"] ∧
    (merge_all_of typeStrSchema typeStrIntSchema).type_ = .many [.string] := by
  refine ⟨?_, ?_, ?_, by decide, by decide⟩
  · intro t s x
    cases t with
    | mk tr tt tp tq ti ta tal tan te td tde tdf =>
      cases s with
      | mk sr st sp sq si sa sal san se sd sde sdf =>
        cases tq <;> cases sq <;>
          simp [merge_all_of, merge_option, Schema.required]
  · intro t s
    cases t with
    | mk tr tt tp tq ti ta tal tan te td tde tdf =>
      cases s with
      | mk sr st sp sq si sa sal san se sd sde sdf =>
        cases tt <;> simp [merge_all_of, Schema.type_, OneOrMany.asVec, OneOrMany.toList]
  · intro t s e
    cases t with
    | mk tr tt tp tq ti ta tal tan te td tde tdf =>
      cases s with
      | mk sr st sp sq si sa sal san se sd sde sdf =>
        cases tt <;>
          simp [merge_all_of, Schema.type_, OneOrMany.asVec, OneOrMany.toList,
            List.mem_filter, List.contains, List.elem_iff]

/-- C9: a reserved-word property key (`type`, `struct`, `enum`) becomes the
underscore-suffixed identifier with a rename annotation preserving the raw
key; a key whose snake-cased form differs from it or contains `$` or `#`
gets those characters stripped (`$ref` becoming `ref_`) and carries a rename
annotation reproducing the raw key; every other key is used unchanged with
no annotation. -/
theorem field_identifier_policy :
    (∀ s : String, (s = "type" ∨ s = "struct" ∨ s = "enum") →
      field s = ["#[serde(rename =", quoteStr s, ")]", "pub", s ++ "_"]) ∧
    (∀ s : String, ¬(s = "type" ∨ s = "struct" ∨ s = "enum") →
      (to_snake_case s ≠ s ∨
        (to_snake_case s).toList.any (fun c => c == '$' || c == '#') = true) →
      field s = ["#[serde(rename =", quoteStr s, ")]", "pub",
        if to_snake_case s = "$ref" then "ref_"
        else stripChar '#' (stripChar '$' (to_snake_case s))]) ∧
    (∀ s : String, ¬(s = "type" ∨ s = "struct" ∨ s = "enum") →
      to_snake_case s = s →
      (to_snake_case s).toList.any (fun c => c == '$' || c == '#') = false →
      field s = ["pub", s]) := by
  refine ⟨?_, ?_, ?_⟩
  · intro s hs
    rcases hs with h | h | h <;> subst h <;> rfl
  · intro s hs hdiff
    have hkw : rename_keyword "pub" s = none := by
      unfold rename_keyword
      simp only [List.any_cons, List.any_nil, Bool.or_false, ite_eq_right_iff]
      intro hcontra
      simp only [Bool.or_eq_true, beq_iff_eq] at hcontra
      exact absurd (by tauto) hs
    unfold field
    rw [hkw]
    simp only []
    rcases hdiff with h | h
    · have hne : (to_snake_case s != s) = true := by simp [bne_iff_ne, h]
      rw [hne]
      simp
    · rw [h]
      simp
  · intro s hs heq hno
    have hkw : rename_keyword "pub" s = none := by
      unfold rename_keyword
      simp only [List.any_cons, List.any_nil, Bool.or_false, ite_eq_right_iff]
      intro hcontra
      simp only [Bool.or_eq_true, beq_iff_eq] at hcontra
      exact absurd (by tauto) hs
    unfold field
    rw [hkw]
    rw [heq] at hno
    simp at hno
    simp [heq]
    exact fun x hx => hno x hx

/-- C9 witness: the literal keys `type` and `$ref` at the concrete inputs. -/
theorem field_identifier_policy_witness :
    field "type" = ["#[serde(rename =", quoteStr "type", ")]", "pub", "type_"] ∧
    field "$ref" = ["#[serde(rename =", quoteStr "$ref", ")]", "pub", "ref_"] := by
  refine ⟨field_identifier_policy.1 "type" (Or.inl rfl), ?_⟩
  have h := field_identifier_policy.2.1 "$ref" (by decide)
    (Or.inr (by decide))
  rw [h]
  decide

/-- C10: `generate` panics (instead of returning `Err`) when the schema text
does not parse, and panics at the `assert!` when the formatter runs but
exits unsuccessfully; an `Err` return only arises from a spawn, write or
wait failure or from non-UTF-8 formatter output. -/
theorem generate_panics_on_parse_and_status :
    (∀ env rootName fuel, generate env none rootName fuel = .panicked unwrapErrMsg) ∧
    (∀ env schema rootName fuel out,
      runExpand rootName fuel schema = .ok out →
      env.spawnOk = true → env.writeOk = true → env.waitOk = true →
      env.statusSuccess = false →
      generate env (some schema) rootName fuel =
        .panicked "assertion failed: output.status.success()") ∧
    (∀ env parsed rootName fuel m,
      generate env parsed rootName fuel = .err m →
      env.spawnOk = false ∨ env.writeOk = false ∨ env.waitOk = false ∨
        env.stdoutUtf8 = none) := by
  refine ⟨fun env rootName fuel => rfl, ?_, ?_⟩
  · intro env schema rootName fuel out hexp hs hw hwa hst
    simp only [generate]
    rw [hexp]
    simp [hs, hw, hwa, hst]
  · intro env parsed rootName fuel m h
    cases parsed with
    | none =>
      simp only [generate] at h
      exact GenResult.noConfusion h
    | some schema =>
      simp only [generate] at h
      cases hexp : runExpand rootName fuel schema with
      | error e =>
        rw [hexp] at h
        cases e <;> simp at h
      | ok out =>
        rw [hexp] at h
        by_cases hs : env.spawnOk = false
        · exact Or.inl hs
        · simp only [Bool.not_eq_false] at hs
          by_cases hw : env.writeOk = false
          · exact Or.inr (Or.inl hw)
          · simp only [Bool.not_eq_false] at hw
            by_cases hwa : env.waitOk = false
            · exact Or.inr (Or.inr (Or.inl hwa))
            · simp only [Bool.not_eq_false] at hwa
              simp only [hs, hw, hwa, Bool.not_true, Bool.false_eq_true,
                if_false] at h
              by_cases hst : env.statusSuccess = true
              · simp only [hst, Bool.not_true, Bool.false_eq_true, if_false] at h
                cases hu : env.stdoutUtf8 with
                | none => simp [hu]
                | some out2 => rw [hu] at h; simp at h
              · simp only [Bool.not_eq_true] at hst
                simp [hst] at h

/-- C10 witness: a concrete run where the formatter exits unsuccessfully. -/
theorem generate_panics_on_parse_and_status_witness :
    generate ⟨true, true, true, false, some "out"⟩ (some Schema.empty) none 1 =
      .panicked "assertion failed: output.status.success()" :=
  generate_panics_on_parse_and_status.2.1 ⟨true, true, true, false, some "out"⟩
    Schema.empty none 1 (([""], false)) rfl rfl rfl rfl rfl

/-- C4: `schema_ref` folds the slash-separated reference segments starting at
the root exactly as the spec describes the algorithm (`#` resets to the
root, `definitions` keeps the current node, any other name is looked up in
the current node's definitions mapping and fails fatally when absent), and
`type_ref` pascal-cases the root name for `#` (failing fatally when none
was supplied) and the last path segment otherwise. -/
theorem schema_ref_follows_spec :
    (∀ root s, schema_ref root s = specResolveRef root s) ∧
    (∀ n, type_ref (some n) "#" = .ok (to_pascal_case n)) ∧
    (type_ref none "#" = .error (.panic "Root name")) ∧
    (∀ rootName s last, s ≠ "#" → (splitChar '/' s).getLast? = some last →
      type_ref rootName s = .ok (to_pascal_case last)) ∧
    (schema_ref refDoc "#/definitions/a" = .ok typeStrSchema) ∧
    (schema_ref refDoc "#/definitions/zzz" =
      .error (.panic "Expected definition: `#/definitions/zzz` zzz")) := by
  refine ⟨fun root s => rfl, fun n => rfl, rfl, ?_, rfl, rfl⟩
  intro rootName s last hne hlast
  unfold type_ref
  have hbeq : (s == "#") = false := by simp [hne]
  rw [hbeq]
  simp [hlast]

/-- C4 witness: resolving the non-`#` reference `x/y` pascal-cases the last
segment. -/
theorem schema_ref_follows_spec_witness :
    type_ref none "x/y" = .ok "Y" := by
  have h := schema_ref_follows_spec.2.2.2.1 none "x/y" "y" (by decide) rfl
  simpa using h

/-- C5 (amended): for a node with no `ref` and no two-element `any_of`,
carrying exactly one declared type: `string` expands to the opaque value
type when an explicit empty enum list is present and to `String` otherwise;
`integer` to `i64`; `number` to `f64`; `boolean` to `bool`; `object` with
`additional_properties` to a string-keyed map of the expansion of the
re-deserialized sub-schema, implicitly defaultable exactly when the node's
own `default` literal equals the empty object; `array` to a `Vec` of the
expansion of `items[0]` when items is non-empty, else of the opaque value
type. -/
theorem expand_type_single_declared_type :
    ∀ root rootName fuel typ noom,
    typ.ref_ = none →
    (typ.any_of = none ∨ (∃ l, typ.any_of = some l ∧ l.length ≠ 2)) →
    ((OneOrMany.toList typ.type_ = [.string] →
      (typ.enum_ = some [] →
        expand_type_ root rootName (fuel + 1) typ noom =
          .ok (.ofString "serde_json::Value", noom)) ∧
      ((typ.enum_ = none ∨ ∃ l, typ.enum_ = some l ∧ l ≠ []) →
        expand_type_ root rootName (fuel + 1) typ noom =
          .ok (.ofString "String", noom))) ∧
    (OneOrMany.toList typ.type_ = [.integer] →
      expand_type_ root rootName (fuel + 1) typ noom = .ok (.ofString "i64", noom)) ∧
    (OneOrMany.toList typ.type_ = [.number] →
      expand_type_ root rootName (fuel + 1) typ noom = .ok (.ofString "f64", noom)) ∧
    (OneOrMany.toList typ.type_ = [.boolean] →
      expand_type_ root rootName (fuel + 1) typ noom = .ok (.ofString "bool", noom)) ∧
    (OneOrMany.toList typ.type_ = [.object] →
      ∀ ap prop inner noom',
        typ.additional_properties = some ap →
        schemaFromValue fuel ap = .ok prop →
        expand_type_ root rootName fuel prop noom = .ok (inner, noom') →
        expand_type_ root rootName (fuel + 1) typ noom =
          .ok (⟨"::std::collections::BTreeMap<String, " ++ inner.typ ++ ">",
                Value.optBeq typ.default (some (Value.obj []))⟩, noom')) ∧
    (∀ d : Option Value,
      Value.optBeq d (some (Value.obj [])) = true ↔ d = some (Value.obj [])) ∧
    (OneOrMany.toList typ.type_ = [.array] →
      (∀ item inner noom',
        typ.items.head? = some item →
        expand_type_ root rootName fuel item noom = .ok (inner, noom') →
        expand_type_ root rootName (fuel + 1) typ noom =
          .ok (.ofString ("Vec<" ++ inner.typ ++ ">"), noom')) ∧
      (typ.items = [] →
        expand_type_ root rootName (fuel + 1) typ noom =
          .ok (.ofString "Vec<serde_json::Value>", noom)))) := by
  intro root rootName fuel typ noom href hany
  cases typ with
  | mk tr tt tp tq ti ta tal tan te td tde tdf =>
    simp only [Schema.ref_] at href
    subst href
    simp only [Schema.any_of] at hany
    simp only [Schema.type_, Schema.enum_, Schema.additional_properties,
      Schema.items, Schema.default]
    have hstep :
        ∀ noomQ,
          expand_type_ root rootName (fuel + 1)
            (.mk none tt tp tq ti ta tal tan te td tde tdf) noomQ =
          (match OneOrMany.toList tt with
          | [t] =>
            match t with
            | .string =>
              if (te.map List.isEmpty).getD false then
                .ok (FieldType.ofString "serde_json::Value", noomQ)
              else
                .ok (FieldType.ofString "String", noomQ)
            | .integer => .ok (FieldType.ofString "i64", noomQ)
            | .boolean => .ok (FieldType.ofString "bool", noomQ)
            | .number => .ok (FieldType.ofString "f64", noomQ)
            | .object =>
              match ta with
              | some ap =>
                match schemaFromValue fuel ap with
                | .error e => .error e
                | .ok prop =>
                  match expand_type_ root rootName fuel prop noomQ with
                  | .error e => .error e
                  | .ok (inner, noom') =>
                    .ok (⟨"::std::collections::BTreeMap<String, " ++ inner.typ ++ ">",
                          Value.optBeq td (some (Value.obj []))⟩, noom')
              | none => .ok (FieldType.ofString "serde_json::Value", noomQ)
            | .array =>
              match ti.head? with
              | some item =>
                match expand_type_ root rootName fuel item noomQ with
                | .error e => .error e
                | .ok (inner, noom') =>
                  .ok (FieldType.ofString ("Vec<" ++ inner.typ ++ ">"), noom')
              | none => .ok (FieldType.ofString "Vec<serde_json::Value>", noomQ)
            | _ => .ok (FieldType.ofString "serde_json::Value", noomQ)
          | _ => .ok (FieldType.ofString "serde_json::Value", noomQ)) := by
      intro noomQ
      rcases hany with h | ⟨l, hl, hlen⟩
      · subst h
        rfl
      · subst hl
        match l, hlen with
        | [], _ => rfl
        | [a], _ => rfl
        | [a, b], h => exact absurd rfl h
        | a :: b :: c :: rest, _ => rfl
    refine ⟨?_, ?_, ?_, ?_, ?_, ?_, ?_⟩
    · intro htt
      rw [htt] at hstep
      constructor
      · intro he
        rw [hstep noom, he]
        rfl
      · intro he
        rw [hstep noom]
        rcases he with h | ⟨l, hl, hne⟩
        · rw [h]; rfl
        · rw [hl]
          cases l with
          | nil => exact absurd rfl hne
          | cons x xs => rfl
    · intro htt; rw [hstep noom, htt]
    · intro htt; rw [hstep noom, htt]
    · intro htt; rw [hstep noom, htt]
    · intro htt ap prop inner noom' hap hdeser hinner
      rw [hstep noom, htt]
      subst hap
      simp only [hdeser, hinner]
    · intro d
      cases d with
      | none => simp [Value.optBeq]
      | some v =>
        cases v <;> simp [Value.optBeq, Value.beq]
        case obj fields => cases fields <;> simp [Value.beqObj]
    · intro htt
      constructor
      · intro item inner noom' hitem hinner
        rw [hstep noom, htt]
        simp only [hitem, hinner]
      · intro hitems
        rw [hstep noom, htt, hitems]
        rfl

/-- C5 counterexample: a node with both a `$ref` and the single declared type
`integer` expands to the referenced type name, not to `i64` — the claim's
quantification over every node with exactly one declared type fails. -/
theorem expand_type_single_declared_type_counterexample :
    expand_type_ Schema.empty none 10 refAndIntSchema false =
      .ok (.ofString "X", false) ∧
    FieldType.ofString "X" ≠ FieldType.ofString "i64" := by
  constructor
  · rfl
  · decide

/-- C5 witness: the `integer` branch at a concrete node. -/
theorem expand_type_single_declared_type_witness :
    expand_type_ Schema.empty none 10 typeIntSchema false =
      .ok (.ofString "i64", false) :=
  (expand_type_single_declared_type Schema.empty none 9 typeIntSchema false
    rfl (Or.inl rfl)).2.1 rfl

/-- A string-literal enum entry emits exactly the variant tokens the claim
describes. -/
theorem variantTokens_str (s : String) :
    variantTokens (Value.str s) = .ok (specVariantTokens s) := by
  unfold variantTokens specVariantTokens
  cases h : (to_pascal_case s == s) <;> simp [h]

/-- Mapping `variantTokens` over string literals succeeds, entry by entry. -/
theorem mapM_variantTokens (ss : List String) :
    (ss.map Value.str).mapM variantTokens = .ok (ss.map specVariantTokens) := by
  induction ss with
  | nil => rfl
  | cons a as ih =>
    rw [List.map_cons, List.map_cons, List.mapM_cons, variantTokens_str, ih]
    rfl

/-- C7 (amended): a schema whose resolved form has no properties and whose
enum is a non-empty list of string literals is emitted as an enum whose
variants are the pascal-cased literals (underscore-suffixed when colliding
with a reserved word), each preceded by a rename annotation recording the
literal exactly when pascal-casing altered it; the declaration itself gets a
rename annotation when pascal-casing altered the schema name. -/
theorem expand_schema_enum_variants :
    ∀ root rootName fuel name schema noom resolved ss,
    resolveSchema root fuel schema = .ok resolved →
    resolved.properties = [] →
    schema.enum_ = some (ss.map Value.str) →
    ss ≠ [] →
    expand_schema root rootName fuel name schema noom =
      .ok (wrapRename name (to_pascal_case name)
        ([deriveAttr] ++ ["pub enum", to_pascal_case name, "\x7b"] ++
         sepByComma (ss.map specVariantTokens) ++ ["\x7d"]), noom) := by
  intro root rootName fuel name schema noom resolved ss hres hprops henum hne
  cases ss with
  | nil => exact absurd rfl hne
  | cons s rest =>
    unfold expand_schema expand_fields
    rw [hres]
    simp only [hprops, expandFieldsGo, henum, List.map_cons, List.isEmpty_nil,
      List.isEmpty_cons, Bool.not_true, Bool.not_false, Option.map_some,
      Option.getD_some, if_false, if_true]
    rw [show ((Value.str s :: rest.map Value.str) : List Value) =
      (s :: rest).map Value.str from rfl]
    rw [mapM_variantTokens]
    simp

/-- C7 counterexample: for `enum ["foo", "FooBar"]` the variant `Foo` does
carry a rename annotation recording `"foo"` (pascal-casing altered the
literal), so the claim's "no rename annotation needed on either" fails. -/
theorem expand_schema_enum_variants_counterexample :
    expand_schema Schema.empty none 10 "x" enumFooSchema false =
      .ok (["#[serde(rename =", quoteStr "x", ")]", deriveAttr, "pub enum", "X",
            "\x7b", "#[serde(rename =", quoteStr "foo", ")]", "Foo", ",",
            "FooBar", "\x7d"], false) ∧
    (["#[serde(rename =", quoteStr "x", ")]", deriveAttr, "pub enum", "X",
      "\x7b", "#[serde(rename =", quoteStr "foo", ")]", "Foo", ",",
      "FooBar", "\x7d"] : Tokens) ≠
    ["#[serde(rename =", quoteStr "x", ")]", deriveAttr, "pub enum", "X",
     "\x7b", "Foo", ",", "FooBar", "\x7d"] := by
  exact ⟨rfl, by decide⟩

/-- C7 witness: `enum ["$schema"]` emits a pascal-cased variant with a rename
annotation recording the literal. -/
theorem expand_schema_enum_variants_witness :
    expand_schema Schema.empty none 10 "x" enumDollarSchema false =
      .ok (wrapRename "x" (to_pascal_case "x")
        ([deriveAttr] ++ ["pub enum", to_pascal_case "x", "\x7b"] ++
         sepByComma (["$schema"].map specVariantTokens) ++ ["\x7d"]), false) :=
  expand_schema_enum_variants Schema.empty none 10 "x" enumDollarSchema false
    enumDollarSchema ["$schema"] rfl rfl rfl (by decide)

/-- The definitions loop produces exactly one declaration per entry, in
order, each related to its entry by `DeclOf`. -/
theorem expandDefsGo_forall2 :
    ∀ root rootName fuel defs noom l noom',
    expandDefsGo root rootName fuel defs noom = .ok (l, noom') →
    List.Forall₂ (DeclOf root rootName fuel) defs l := by
  intro root rootName fuel defs
  induction defs with
  | nil =>
    intro noom l noom' h
    simp only [expandDefsGo] at h
    cases h
    exact List.Forall₂.nil
  | cons entry rest ih =>
    intro noom l noom' h
    obtain ⟨name, d⟩ := entry
    simp only [expandDefsGo] at h
    cases hds : expand_schema root rootName fuel name d noom with
    | error e => simp only [hds] at h; exact Except.noConfusion h
    | ok p =>
      obtain ⟨type_decl, noom1⟩ := p
      simp only [hds] at h
      cases hrest : expandDefsGo root rootName fuel rest noom1 with
      | error e => simp only [hrest] at h; exact Except.noConfusion h
      | ok q =>
        obtain ⟨toks, noom2⟩ := q
        simp only [hrest] at h
        have hp := Except.ok.inj h
        rw [Prod.mk.injEq] at hp
        obtain ⟨hA, hB⟩ := hp
        subst hA
        subst hB
        exact List.Forall₂.cons ⟨noom, noom1, type_decl, hds, rfl⟩
          (ih noom1 toks noom2 hrest)

/-- C8: `expand` accumulates exactly one declaration per entry of the root's
`definitions`, first and in the definitions' order, followed by one
declaration for the root schema exactly when a root name was supplied;
declarations are never deduplicated (the count is exactly the entry count
plus the optional root). -/
theorem expand_emits_definitions_in_order :
    ∀ root rootName fuel schema noom types noom',
    expandTypes root rootName fuel schema noom = .ok (types, noom') →
    types.length = schema.definitions.length +
      (match rootName with | some _ => 1 | none => 0) ∧
    ∃ defsDecls rootDecls,
      types = defsDecls ++ rootDecls ∧
      List.Forall₂ (DeclOf root rootName fuel) schema.definitions defsDecls ∧
      (match rootName with
       | some name => ∃ d noomIn noomOut, rootDecls = [d] ∧
           expand_schema root rootName fuel name schema noomIn = .ok (d, noomOut)
       | none => rootDecls = []) := by
  intro root rootName fuel schema noom types noom' h
  unfold expandTypes at h
  cases hdefs : expand_definitions root rootName fuel schema noom with
  | error e => simp only [hdefs] at h; exact Except.noConfusion h
  | ok p =>
    obtain ⟨l, noom1⟩ := p
    simp only [hdefs] at h
    unfold expand_definitions at hdefs
    have hf2 := expandDefsGo_forall2 root rootName fuel schema.definitions noom l noom1 hdefs
    have hlen := List.Forall₂.length_eq hf2
    cases rootName with
    | none =>
      have hp := Except.ok.inj h
      rw [Prod.mk.injEq] at hp
      obtain ⟨hA, hB⟩ := hp
      subst hA
      subst hB
      exact ⟨by simpa using hlen.symm, l, [], by simp, hf2, rfl⟩
    | some name =>
      cases hroot : expand_schema root (some name) fuel name schema noom1 with
      | error e => simp only [hroot] at h; exact Except.noConfusion h
      | ok q =>
        obtain ⟨d, noom2⟩ := q
        simp only [hroot] at h
        have hp := Except.ok.inj h
        rw [Prod.mk.injEq] at hp
        obtain ⟨hA, hB⟩ := hp
        subst hA
        subst hB
        refine ⟨by simp [hlen.symm], l, [d], rfl, hf2, ⟨d, noom1, noom2, rfl, hroot⟩⟩

/-! ### Character-level invariants of the casing maps -/

/-- Every letter pair of the case table is alphanumeric on both sides. -/
theorem mem_lowerUpperPairs_alnum :
    ∀ p ∈ lowerUpperPairs, isAlnumA p.1 = true ∧ isAlnumA p.2 = true := by decide

/-- ASCII uppercasing preserves alphanumeric characters. -/
theorem asciiUpper_alnum {c : Char} (h : isAlnumA c = true) :
    isAlnumA (asciiUpper c) = true := by
  unfold asciiUpper
  cases hf : lowerUpperPairs.find? (fun p => p.1 == c) with
  | none => simpa using h
  | some p =>
    have hmem := List.mem_of_find?_eq_some hf
    simpa using (mem_lowerUpperPairs_alnum p hmem).2

/-- ASCII lowercasing preserves alphanumeric characters. -/
theorem asciiLower_alnum {c : Char} (h : isAlnumA c = true) :
    isAlnumA (asciiLower c) = true := by
  unfold asciiLower
  cases hf : lowerUpperPairs.find? (fun p => p.2 == c) with
  | none => simpa using h
  | some p =>
    have hmem := List.mem_of_find?_eq_some hf
    simpa using (mem_lowerUpperPairs_alnum p hmem).1

/-- Every word split off by the casing word-splitter consists of
alphanumeric characters (given the accumulator does). -/
theorem splitWordsAux_alnum :
    ∀ l acc, (∀ c ∈ acc, isAlnumA c = true) →
      ∀ w ∈ splitWordsAux l acc, ∀ c ∈ w, isAlnumA c = true := by
  intro l
  induction l with
  | nil =>
    intro acc hacc w hw c hc
    simp only [splitWordsAux] at hw
    by_cases he : acc.isEmpty
    · simp [he] at hw
    · simp [he] at hw
      subst hw
      exact hacc c (List.mem_reverse.mp hc)
  | cons ch cs ih =>
    intro acc hacc w hw c hc
    simp only [splitWordsAux] at hw
    by_cases h1 : isAlnumA ch
    · rw [h1] at hw
      simp only [Bool.not_true, Bool.false_eq_true, if_false] at hw
      by_cases h2 : (isUpperA ch && wordBoundary acc) = true
      · rw [if_pos h2] at hw
        rcases List.mem_cons.mp hw with h | h
        · subst h
          exact hacc c (List.mem_reverse.mp hc)
        · exact ih [ch] (by intro x hx; simp at hx; subst hx; exact h1) w h c hc
      · rw [if_neg h2] at hw
        refine ih (ch :: acc) ?_ w hw c hc
        intro x hx
        rcases List.mem_cons.mp hx with h | h
        · subst h; exact h1
        · exact hacc x h
    · have h1' : isAlnumA ch = false := by
        cases hv : isAlnumA ch
        · rfl
        · exact absurd hv h1
      rw [h1'] at hw
      simp only [Bool.not_false, if_true] at hw
      by_cases he : acc.isEmpty
      · simp only [he, if_true, List.nil_append] at hw
        exact ih [] (by intro x hx; cases hx) w hw c hc
      · simp only [he, if_false, List.singleton_append] at hw
        rcases List.mem_cons.mp hw with h | h
        · subst h
          exact hacc c (List.mem_reverse.mp hc)
        · exact ih [] (by intro x hx; cases hx) w h c hc

/-- Capitalizing a word of alphanumeric characters yields alphanumeric
characters only. -/
theorem capitalizeWord_alnum {w : List Char} (hw : ∀ c ∈ w, isAlnumA c = true) :
    ∀ c ∈ capitalizeWord w, isAlnumA c = true := by
  cases w with
  | nil => intro c hc; cases hc
  | cons a rest =>
    intro c hc
    simp only [capitalizeWord] at hc
    rcases List.mem_cons.mp hc with h | h
    · subst h
      exact asciiUpper_alnum (hw a (List.mem_cons_self a rest))
    · rw [List.mem_map] at h
      obtain ⟨d, hd, rfl⟩ := h
      exact asciiLower_alnum (hw d (List.mem_cons_of_mem a hd))

/-- Every character of a pascal-cased name is alphanumeric. -/
theorem to_pascal_case_alnum (s : String) :
    ∀ c ∈ (to_pascal_case s).toList, isAlnumA c = true := by
  intro c hc
  unfold to_pascal_case at hc
  rw [show (String.mk ((splitWordsAux s.toList []).map capitalizeWord).flatten).toList =
    ((splitWordsAux s.toList []).map capitalizeWord).flatten from rfl] at hc
  rw [List.mem_flatten] at hc
  obtain ⟨w', hw', hc'⟩ := hc
  rw [List.mem_map] at hw'
  obtain ⟨w, hw, rfl⟩ := hw'
  exact capitalizeWord_alnum
    (splitWordsAux_alnum s.toList [] (by intro x hx; cases hx) w hw) c hc'

/-! ### No emitted declaration token equals the helper text

The one-or-many helper text is a single token starting with a newline; every
token contributed by a declaration is shown distinct from it. -/

/-- The helper text begins with a newline. -/
theorem ONE_OR_MANY_head : ONE_OR_MANY.toList.head? = some '\n' := rfl

/-- A token whose first character is not a newline is not the helper text. -/
theorem tokOk_of_head {t : String} (h : t.toList.head? ≠ some '\n') :
    t ≠ ONE_OR_MANY := by
  intro he
  subst he
  exact h ONE_OR_MANY_head

/-- Pascal-cased names never start with a newline. -/
theorem to_pascal_case_head (s : String) :
    (to_pascal_case s).toList.head? ≠ some '\n' := by
  intro he
  have hmem : '\n' ∈ (to_pascal_case s).toList := by
    cases hh : (to_pascal_case s).toList with
    | nil => rw [hh] at he; cases he
    | cons c rest =>
      rw [hh, List.head?_cons] at he
      have hc : c = '\n' := by injection he
      subst hc
      exact List.mem_cons_self _ _
  exact absurd (to_pascal_case_alnum s '\n' hmem) (by decide)

/-- A pascal-cased name is never the helper text. -/
theorem tokOk_pascal (s : String) : to_pascal_case s ≠ ONE_OR_MANY :=
  tokOk_of_head (to_pascal_case_head s)

/-- Snake-casing alters the helper text (it contains uppercase letters). -/
theorem snake_OOM : to_snake_case ONE_OR_MANY ≠ ONE_OR_MANY := by decide

/-- A raw key that snake-casing leaves unchanged is never the helper text. -/
theorem tokOk_snake_fix {s : String} (h : to_snake_case s = s) :
    s ≠ ONE_OR_MANY := by
  intro he
  subst he
  exact snake_OOM h

/-- Stripping removes every occurrence of the character. -/
theorem stripChar_not_mem (c : Char) (s : String) : c ∉ (stripChar c s).toList := by
  unfold stripChar
  rw [show (String.mk (s.toList.filter (fun d => d ≠ c))).toList =
    s.toList.filter (fun d => d ≠ c) from rfl]
  intro h
  have hd := (List.mem_filter.mp h).2
  simp at hd

/-- The helper text contains a `#`. -/
theorem OOM_hash : '#' ∈ ONE_OR_MANY.toList := by decide

/-- A `#`-stripped identifier is never the helper text. -/
theorem tokOk_strip (s : String) : stripChar '#' s ≠ ONE_OR_MANY := by
  intro he
  have h := stripChar_not_mem '#' s
  rw [he] at h
  exact h OOM_hash

/-- A string-literal token is never the helper text. -/
theorem tokOk_quoteStr (s : String) : quoteStr s ≠ ONE_OR_MANY := by
  apply tokOk_of_head
  rw [show (quoteStr s).toList = '"' :: (s.toList ++ ['"']) from rfl]
  simp

/-- The word-wrap loop only ever appends to its accumulator. -/
theorem mdcGo_pre (r : Nat) :
    ∀ fuel c len out, ∃ t, mdcGo r fuel c len out = out ++ t := by
  intro fuel
  induction fuel with
  | zero =>
    intro c len out
    exact ⟨[], by simp [mdcGo]⟩
  | succ n ih =>
    intro c len out
    by_cases he : c.isEmpty
    · exact ⟨[], by simp [mdcGo, he]⟩
    · have he' : c.isEmpty = false := by simpa using he
      simp only [mdcGo, he', Bool.false_eq_true, if_false]
      split <;> split <;>
        exact ⟨_, by rw [(ih _ _ _).choose_spec]; simp; try rfl⟩

/-- A doc-comment token starts with `/`, so it is never the helper text. -/
theorem tokOk_mdc (c : String) (r : Nat) : make_doc_comment c r ≠ ONE_OR_MANY := by
  apply tokOk_of_head
  unfold make_doc_comment
  obtain ⟨t, ht⟩ := mdcGo_pre r (c.length + 2) c.toList 4 "/// ".toList
  rw [ht]
  rw [show ("/// ".toList) = '/' :: "// ".toList from rfl]
  cases hl : ('/' :: "// ".toList ++ t).getLast? == some ' ' with
  | true =>
    simp only [hl, if_true]
    rw [show (String.mk ((('/' :: "// ".toList ++ t).dropLast) ++ ['\n'])).toList =
      (('/' :: "// ".toList ++ t).dropLast) ++ ['\n'] from rfl]
    rw [show ('/' :: "// ".toList ++ t) = '/' :: ("// ".toList ++ t) from rfl]
    rw [List.dropLast_cons_of_ne_nil (by simp)]
    simp
  | false =>
    simp only [hl, Bool.false_eq_true, if_false]
    rw [show (String.mk (('/' :: "// ".toList ++ t) ++ ['\n'])).toList =
      ('/' :: "// ".toList ++ t) ++ ['\n'] from rfl]
    simp

/-! ### Shapes of the type expressions the expander can produce -/

/-- String append concatenates the character lists. -/
theorem append_toList (a b : String) : (a ++ b).toList = a.toList ++ b.toList := rfl

/-- String append is associative. -/
theorem strAppend_assoc (a b c : String) : a ++ b ++ c = a ++ (b ++ c) := by
  cases a with
  | mk da =>
    cases b with
    | mk db =>
      cases c with
      | mk dc =>
        show String.mk ((da ++ db) ++ dc) = String.mk (da ++ (db ++ dc))
        rw [List.append_assoc]

/-- A cons list starting with a non-newline character. -/
theorem head_cons_ne_nl {c : Char} (l : List Char) (h : ¬ c = '\n') :
    (c :: l).head? ≠ some '\n' := by
  simp only [List.head?_cons]
  intro he
  exact h (Option.some.inj he)

/-- A list is a `isPrefixOf` of itself followed by anything. -/
theorem isPrefixOf_append_self : ∀ (p t : List Char), p.isPrefixOf (p ++ t) = true := by
  intro p t
  induction p with
  | nil => simp
  | cons a as ih => simp [List.isPrefixOf, ih]

/-- An `Option<..>`-wrapped type does start with `Option<`. -/
theorem strStartsWith_option (x : String) :
    strStartsWith ("Option<" ++ x) "Option<" = true := by
  unfold strStartsWith
  rw [append_toList]
  exact isPrefixOf_append_self _ _

/-- A pascal-cased name never starts with `Option<` (its characters are
alphanumeric, `<` is not). -/
theorem pascal_not_option (s : String) :
    strStartsWith (to_pascal_case s) "Option<" = false := by
  cases hb : strStartsWith (to_pascal_case s) "Option<" with
  | false => rfl
  | true =>
    exfalso
    unfold strStartsWith at hb
    have hpre := List.isPrefixOf_iff_prefix.mp hb
    have hmem : '<' ∈ (to_pascal_case s).toList :=
      hpre.subset (by decide)
    exact absurd (to_pascal_case_alnum s '<' hmem) (by decide)

/-- `OneOrMany<..>` does not start with `Option<`. -/
theorem oneOrMany_not_option (x : String) :
    strStartsWith ("OneOrMany<" ++ x) "Option<" = false := by
  unfold strStartsWith
  rw [show ("OneOrMany<" ++ x).toList =
    'O' :: 'n' :: 'e' :: 'O' :: 'r' :: 'M' :: 'a' :: 'n' :: 'y' :: '<' :: x.toList from rfl]
  rw [show ("Option<" : String).toList = ['O','p','t','i','o','n','<'] from rfl]
  simp [List.isPrefixOf]

/-- `Box<..>` does not start with `Option<`. -/
theorem box_not_option (x : String) :
    strStartsWith ("Box<" ++ x) "Option<" = false := by
  unfold strStartsWith
  rw [show ("Box<" ++ x).toList = 'B' :: 'o' :: 'x' :: '<' :: x.toList from rfl]
  rw [show ("Option<" : String).toList = ['O','p','t','i','o','n','<'] from rfl]
  simp [List.isPrefixOf]

/-- `Vec<..>` does not start with `Option<`. -/
theorem vec_not_option (x : String) :
    strStartsWith ("Vec<" ++ x) "Option<" = false := by
  unfold strStartsWith
  rw [show ("Vec<" ++ x).toList = 'V' :: 'e' :: 'c' :: '<' :: x.toList from rfl]
  rw [show ("Option<" : String).toList = ['O','p','t','i','o','n','<'] from rfl]
  simp [List.isPrefixOf]

/-- `BTreeMap<String, ..>` does not start with `Option<`. -/
theorem btreemap_not_option (x : String) :
    strStartsWith ("::std::collections::BTreeMap<String, " ++ x) "Option<" = false := by
  unfold strStartsWith
  rw [show ("::std::collections::BTreeMap<String, " ++ x).toList =
    ':' :: ':' :: ("std::collections::BTreeMap<String, ".toList ++ x.toList) from rfl]
  rw [show ("Option<" : String).toList = ['O','p','t','i','o','n','<'] from rfl]
  simp [List.isPrefixOf]

/-- `type_ref` only ever returns a pascal-cased name. -/
theorem type_ref_ok_shape {rootName : Option String} {s name : String}
    (h : type_ref rootName s = .ok name) : ∃ x, name = to_pascal_case x := by
  unfold type_ref at h
  cases hb : (s == "#") with
  | true =>
    rw [hb] at h
    simp only [if_true] at h
    cases rootName with
    | none => exact Except.noConfusion h
    | some n => exact ⟨n, (Except.ok.inj h).symm⟩
  | false =>
    rw [hb] at h
    simp only [Bool.false_eq_true, if_false] at h
    cases hl : (splitChar '/' s).getLast? with
    | none => rw [hl] at h; exact Except.noConfusion h
    | some comp =>
      rw [hl] at h
      exact ⟨comp, (Except.ok.inj h).symm⟩

/-- The declared-type branch of the inner inference satisfies the same
shape invariant (assuming it for the opaque-value results). -/
theorem typeBranchInv {root : Schema} {rootName : Option String} {n : Nat}
{typ : Schema} {noom : Bool} {ft : FieldType} {noom' : Bool}
  (h : (match (OneOrMany.toList (Schema.type_ typ)) with
    | [t] =>
      match t with
      | .string =>
        if ((Schema.enum_ typ).map List.isEmpty).getD false then
          .ok (FieldType.ofString "serde_json::Value", noom)
        else
          .ok (FieldType.ofString "String", noom)
      | .integer => .ok (FieldType.ofString "i64", noom)
      | .boolean => .ok (FieldType.ofString "bool", noom)
      | .number => .ok (FieldType.ofString "f64", noom)
      | .object =>
        match Schema.additional_properties typ with
        | some ap =>
          match schemaFromValue n ap with
          | .error e => .error e
          | .ok prop =>
            match expand_type_ root rootName n prop noom with
            | .error e => .error e
            | .ok (inner, noom') =>
              .ok (⟨"::std::collections::BTreeMap<String, " ++ inner.typ ++ ">",
                    Value.optBeq (Schema.default typ) (some (Value.obj []))⟩, noom')
        | none => .ok (FieldType.ofString "serde_json::Value", noom)
      | .array =>
        match (Schema.items typ).head? with
        | some item =>
          match expand_type_ root rootName n item noom with
          | .error e => .error e
          | .ok (inner, noom') =>
            .ok (FieldType.ofString ("Vec<" ++ inner.typ ++ ">"), noom')
        | none => .ok (FieldType.ofString "Vec<serde_json::Value>", noom)
      | _ => .ok (FieldType.ofString "serde_json::Value", noom)
    | _ => .ok (FieldType.ofString "serde_json::Value", noom)
    : Except ExpandError (FieldType × Bool)) = .ok (ft, noom'))
  (hval : ft = FieldType.ofString "serde_json::Value" →
    ft.typ.toList.head? ≠ some '\n' ∧ strStartsWith ft.typ "Option<" = false) :
  ft.typ.toList.head? ≠ some '\n' ∧ strStartsWith ft.typ "Option<" = false := by
cases htt : OneOrMany.toList (Schema.type_ typ) with
| nil =>
  simp only [htt] at h
  have hp := Except.ok.inj h
  rw [Prod.mk.injEq] at hp
  exact hval hp.1.symm
| cons t rest =>
  cases rest with
  | cons u urest =>
    simp only [htt] at h
    have hp := Except.ok.inj h
    rw [Prod.mk.injEq] at hp
    exact hval hp.1.symm
  | nil =>
    simp only [htt] at h
    cases t with
    | string =>
      cases hen : ((Schema.enum_ typ).map List.isEmpty).getD false with
      | true =>
        rw [hen] at h
        simp only [if_true] at h
        have hp := Except.ok.inj h
        rw [Prod.mk.injEq] at hp
        exact hval hp.1.symm
      | false =>
        rw [hen] at h
        simp only [Bool.false_eq_true, if_false] at h
        have hp := Except.ok.inj h
        rw [Prod.mk.injEq] at hp
        obtain ⟨hA, _⟩ := hp
        subst hA
        exact ⟨by decide, by decide⟩
    | integer =>
      have hp := Except.ok.inj h
      rw [Prod.mk.injEq] at hp
      obtain ⟨hA, _⟩ := hp
      subst hA
      exact ⟨by decide, by decide⟩
    | boolean =>
      have hp := Except.ok.inj h
      rw [Prod.mk.injEq] at hp
      obtain ⟨hA, _⟩ := hp
      subst hA
      exact ⟨by decide, by decide⟩
    | number =>
      have hp := Except.ok.inj h
      rw [Prod.mk.injEq] at hp
      obtain ⟨hA, _⟩ := hp
      subst hA
      exact ⟨by decide, by decide⟩
    | null =>
      have hp := Except.ok.inj h
      rw [Prod.mk.injEq] at hp
      exact hval hp.1.symm
    | object =>
      cases hap : Schema.additional_properties typ with
      | none =>
        simp only [hap] at h
        have hp := Except.ok.inj h
        rw [Prod.mk.injEq] at hp
        exact hval hp.1.symm
      | some ap =>
        simp only [hap] at h
        cases hdes : schemaFromValue n ap with
        | error e => simp only [hdes] at h; exact Except.noConfusion h
        | ok prop =>
          simp only [hdes] at h
          cases hrec : expand_type_ root rootName n prop noom with
          | error e => simp only [hrec] at h; exact Except.noConfusion h
          | ok p =>
            obtain ⟨inner, noom2⟩ := p
            simp only [hrec] at h
            have hp := Except.ok.inj h
            rw [Prod.mk.injEq] at hp
            obtain ⟨hA, _⟩ := hp
            subst hA
            refine ⟨?_, btreemap_not_option _⟩
            rw [show ("::std::collections::BTreeMap<String, " ++ inner.typ ++ ">" :
              String).toList =
              ':' :: (":std::collections::BTreeMap<String, " ++ inner.typ ++ ">" :
                String).toList from rfl]
            simp
    | array =>
      cases hit : (Schema.items typ).head? with
      | none =>
        simp only [hit] at h
        have hp := Except.ok.inj h
        rw [Prod.mk.injEq] at hp
        obtain ⟨hA, _⟩ := hp
        subst hA
        exact ⟨by decide, by decide⟩
      | some item =>
        simp only [hit] at h
        cases hrec : expand_type_ root rootName n item noom with
        | error e => simp only [hrec] at h; exact Except.noConfusion h
        | ok p =>
          obtain ⟨inner, noom2⟩ := p
          simp only [hrec] at h
          have hp := Except.ok.inj h
          rw [Prod.mk.injEq] at hp
          obtain ⟨hA, _⟩ := hp
          subst hA
          simp only [FieldType.ofString]
          refine ⟨?_, ?_⟩
          · rw [show (("Vec<" ++ inner.typ ++ ">" : String)).toList =
              'V' :: (("ec<" ++ inner.typ ++ ">" : String)).toList from rfl]
            exact head_cons_ne_nl _ (by decide)
          · rw [strAppend_assoc]
            exact vec_not_option _


/-- Every type expression produced by the inner inference neither starts with
a newline nor starts with `Option<`. -/
theorem expand_type_inv :
    ∀ fuel root rootName typ noom ft noom',
    expand_type_ root rootName fuel typ noom = .ok (ft, noom') →
    ft.typ.toList.head? ≠ some '\n' ∧ strStartsWith ft.typ "Option<" = false := by
  intro fuel
  cases fuel with
  | zero =>
    intro root rootName typ noom ft noom' h
    exact Except.noConfusion h
  | succ n =>
    intro root rootName typ noom ft noom' h
    simp only [expand_type_] at h
    cases href : typ.ref_ with
    | some r =>
      simp only [href] at h
      cases htr : type_ref rootName r with
      | error e => simp only [htr] at h; exact Except.noConfusion h
      | ok name =>
        simp only [htr] at h
        have hp := Except.ok.inj h
        rw [Prod.mk.injEq] at hp
        obtain ⟨hA, hB⟩ := hp
        subst hA
        obtain ⟨x, hx⟩ := type_ref_ok_shape htr
        subst hx
        exact ⟨to_pascal_case_head x, pascal_not_option x⟩
    | none =>
      simp only [href] at h
      have hval : ft = FieldType.ofString "serde_json::Value" →
          ft.typ.toList.head? ≠ some '\n' ∧ strStartsWith ft.typ "Option<" = false := by
        intro hft
        subst hft
        exact ⟨by decide, by decide⟩
      cases han : typ.any_of with
      | some l =>
        match l, han with
        | [a0, a1], han =>
          simp only [han] at h
          cases hr0 : resolveSchema root n a0 with
          | error e => simp only [hr0] at h; exact Except.noConfusion h
          | ok simple =>
            simp only [hr0] at h
            cases hr1 : resolveSchema root n a1 with
            | error e => simp only [hr1] at h; exact Except.noConfusion h
            | ok array =>
              simp only [hr1] at h
              cases hh : (OneOrMany.toList array.type_).head? with
              | none => simp only [hh] at h; exact Except.noConfusion h
              | some t0 =>
                simp only [hh] at h
                cases ht0 : (t0 == SimpleTypes.array) with
                | false =>
                  rw [ht0] at h
                  simp only [Bool.false_eq_true, if_false] at h
                  have hp := Except.ok.inj h
                  rw [Prod.mk.injEq] at hp
                  exact hval hp.1.symm
                | true =>
                  rw [ht0] at h
                  simp only [if_true] at h
                  cases hit : array.items.head? with
                  | none => simp only [hit] at h; exact Except.noConfusion h
                  | some item0 =>
                    simp only [hit] at h
                    cases hri : resolveSchema root n item0 with
                    | error e => simp only [hri] at h; exact Except.noConfusion h
                    | ok ritem =>
                      simp only [hri] at h
                      cases hbeq : Schema.beq simple ritem with
                      | false =>
                        rw [hbeq] at h
                        simp only [Bool.false_eq_true, if_false] at h
                        have hp := Except.ok.inj h
                        rw [Prod.mk.injEq] at hp
                        exact hval hp.1.symm
                      | true =>
                        rw [hbeq] at h
                        simp only [if_true] at h
                        cases hrec : expand_type_ root rootName n a0 true with
                        | error e => simp only [hrec] at h; exact Except.noConfusion h
                        | ok p =>
                          obtain ⟨inner, noom2⟩ := p
                          simp only [hrec] at h
                          have hp := Except.ok.inj h
                          rw [Prod.mk.injEq] at hp
                          obtain ⟨hA, hB⟩ := hp
                          subst hA
                          refine ⟨?_, ?_⟩
                          · rw [show ("OneOrMany<" ++ inner.typ ++ ">" : String).toList =
                              'O' :: (("neOrMany<" ++ inner.typ ++ ">" : String)).toList from rfl]
                            exact head_cons_ne_nl _ (by decide)
                          · rw [strAppend_assoc]
                            exact oneOrMany_not_option _
        | [], han => simp only [han] at h; exact typeBranchInv h hval
        | [a], han => simp only [han] at h; exact typeBranchInv h hval
        | a :: b :: c :: rest, han => simp only [han] at h; exact typeBranchInv h hval
      | none =>
        simp only [han] at h
        exact typeBranchInv h hval
/-- C3: `expand_type` wraps the inner type in `Box` when its name textually
equals the enclosing type name; when the field is not required and the inner
descriptor carries no implicit default the result is `Option`-wrapped; and a
required field's type is never `Option`-wrapped, whatever its
implicit-default flag. -/
theorem expand_type_wrapping :
    (∀ root rootName fuel name req typ noom ft noom',
      expand_type_ root rootName fuel typ noom = .ok (ft, noom') →
      ft.typ = name →
      expand_type root rootName fuel name req typ noom =
        .ok (⟨if !req && !ft.default then "Option<" ++ ("Box<" ++ name ++ ">") ++ ">"
              else "Box<" ++ name ++ ">", ft.default⟩, noom')) ∧
    (∀ root rootName fuel name typ noom ft noom' ft2 noom2,
      expand_type_ root rootName fuel typ noom = .ok (ft, noom') →
      ft.default = false →
      expand_type root rootName fuel name false typ noom = .ok (ft2, noom2) →
      strStartsWith ft2.typ "Option<" = true) ∧
    (∀ root rootName fuel name typ noom ft2 noom2,
      expand_type root rootName fuel name true typ noom = .ok (ft2, noom2) →
      strStartsWith ft2.typ "Option<" = false) := by
  refine ⟨?_, ?_, ?_⟩
  · intro root rootName fuel name req typ noom ft noom' h hname
    obtain ⟨ftyp, fdef⟩ := ft
    simp only at hname
    subst hname
    unfold expand_type
    rw [h]
    simp only [beq_self_eq_true, if_true]
    cases req <;> cases fdef <;> simp
  · intro root rootName fuel name typ noom ft noom' ft2 noom2 h hdef h2
    obtain ⟨ftyp, fdef⟩ := ft
    simp only at hdef
    subst hdef
    unfold expand_type at h2
    rw [h] at h2
    by_cases hbeq : (name == ftyp) = true
    · simp only [hbeq, if_true, Bool.not_false, Bool.and_self] at h2
      have hp := Except.ok.inj h2
      rw [Prod.mk.injEq] at hp
      obtain ⟨hA, _⟩ := hp
      rw [← hA]
      exact strStartsWith_option _
    · rw [Bool.not_eq_true] at hbeq
      simp only [hbeq, Bool.false_eq_true, if_false, Bool.not_false, Bool.and_self] at h2
      have hp := Except.ok.inj h2
      rw [Prod.mk.injEq] at hp
      obtain ⟨hA, _⟩ := hp
      rw [← hA]
      exact strStartsWith_option _
  · intro root rootName fuel name typ noom ft2 noom2 h
    unfold expand_type at h
    cases hexp : expand_type_ root rootName fuel typ noom with
    | error e => rw [hexp] at h; exact Except.noConfusion h
    | ok p =>
      obtain ⟨ft, noom'⟩ := p
      rw [hexp] at h
      simp only [Bool.not_true, Bool.false_and, Bool.false_eq_true, if_false] at h
      have hinv := (expand_type_inv fuel root rootName typ noom ft noom' hexp).2
      by_cases hbeq : (name == ft.typ) = true
      · simp only [hbeq, if_true] at h
        have hp := Except.ok.inj h
        rw [Prod.mk.injEq] at hp
        obtain ⟨hA, _⟩ := hp
        rw [← hA]
        exact box_not_option _
      · rw [Bool.not_eq_true] at hbeq
        simp only [hbeq, Bool.false_eq_true, if_false] at h
        have hp := Except.ok.inj h
        rw [Prod.mk.injEq] at hp
        obtain ⟨hA, _⟩ := hp
        rw [← hA]
        exact hinv

/-- C3 witness: a self-referential optional field is wrapped in
`Option<Box<..>>`. -/
theorem expand_type_wrapping_witness :
    expand_type Schema.empty none 10 "X" false refAndIntSchema false =
      .ok (⟨"Option<Box<X>>", false⟩, false) := by
  have h := expand_type_wrapping.1 Schema.empty none 10 "X" false refAndIntSchema
    false (.ofString "X") false rfl rfl
  simpa using h

/-! ### Declaration tokens never equal the helper text -/

/-- Tokens emitted by `rename_keyword` are never the helper text (given the
prefix token is not). -/
theorem rename_keyword_tokOk (pfx s : String) (hpfx : pfx ≠ ONE_OR_MANY) :
    ∀ toks, rename_keyword pfx s = some toks → ∀ t ∈ toks, t ≠ ONE_OR_MANY := by
  unfold rename_keyword
  intro toks h
  by_cases hc : (["type", "struct", "enum"].any (fun keyword => keyword == s)) = true
  · rw [if_pos hc] at h
    have hs : s = "type" ∨ s = "struct" ∨ s = "enum" := by
      simp only [List.any_cons, List.any_nil, Bool.or_false, Bool.or_eq_true,
        beq_iff_eq] at hc
      tauto
    have htoks := Option.some.inj h
    subst htoks
    intro t ht
    simp only [List.mem_cons, List.mem_singleton] at ht
    rcases ht with rfl | rfl | rfl | rfl | rfl | h0
    · exact tokOk_of_head (by decide)
    · exact tokOk_quoteStr s
    · exact tokOk_of_head (by decide)
    · exact hpfx
    · rcases hs with rfl | rfl | rfl <;> exact tokOk_of_head (by decide)
    · cases h0
  · rw [if_neg hc] at h
    exact Option.noConfusion h

/-- Tokens emitted by `field` are never the helper text. -/
theorem field_tokOk (s : String) : ∀ t ∈ field s, t ≠ ONE_OR_MANY := by
  unfold field
  cases hrk : rename_keyword "pub" s with
  | some toks => exact rename_keyword_tokOk "pub" s (by decide) toks hrk
  | none =>
    by_cases hcond : (to_snake_case s != s ||
        (to_snake_case s).toList.any (fun c => c == '$' || c == '#')) = true
    · rw [if_pos hcond]
      intro t ht
      simp only [List.mem_cons, List.mem_singleton] at ht
      rcases ht with rfl | rfl | rfl | rfl | rfl | h0
      · exact tokOk_of_head (by decide)
      · exact tokOk_quoteStr s
      · exact tokOk_of_head (by decide)
      · exact tokOk_of_head (by decide)
      · by_cases hr : (to_snake_case s == "$ref") = true
        · rw [if_pos hr]
          exact tokOk_of_head (by decide)
        · rw [if_neg hr]
          exact tokOk_strip _
      · cases h0
    · rw [if_neg hcond]
      intro t ht
      simp only [List.mem_cons, List.mem_singleton] at ht
      rcases ht with rfl | h2 | h0
      · exact tokOk_of_head (by decide)
      · rw [h2]
        have hsnake : to_snake_case s = s := by
          simp only [Bool.or_eq_true, not_or, bne_iff_ne, ne_eq,
            Decidable.not_not] at hcond
          exact hcond.1
        exact tokOk_snake_fix hsnake
      · cases h0

/-- The type expression returned by `expand_type` is never the helper text. -/
theorem expand_type_tokOk {root : Schema} {rootName : Option String} {fuel : Nat}
    {name : String} {req : Bool} {typ : Schema} {noom : Bool} {ft2 : FieldType}
    {noom2 : Bool}
    (h : expand_type root rootName fuel name req typ noom = .ok (ft2, noom2)) :
    ft2.typ ≠ ONE_OR_MANY := by
  unfold expand_type at h
  cases hexp : expand_type_ root rootName fuel typ noom with
  | error e => rw [hexp] at h; exact Except.noConfusion h
  | ok p =>
    obtain ⟨ft, noom'⟩ := p
    rw [hexp] at h
    have hinner := (expand_type_inv fuel root rootName typ noom ft noom' hexp).1
    have hp := Except.ok.inj h
    rw [Prod.mk.injEq] at hp
    obtain ⟨hA, _⟩ := hp
    apply tokOk_of_head
    rw [← hA]
    by_cases h1 : (name == ft.typ) = true <;>
      by_cases h2 : (!req && !(if h1' : (name == ft.typ) = true then True else True)) = true
    all_goals simp only [h1, if_true, Bool.false_eq_true, if_false]
    all_goals split
    all_goals first
      | (rw [show ("Option<" ++ ("Box<" ++ ft.typ ++ ">") ++ ">").toList =
            'O' :: (("ption<" ++ ("Box<" ++ ft.typ ++ ">") ++ ">" : String)).toList from rfl]
         exact head_cons_ne_nl _ (by decide))
      | (rw [show ("Box<" ++ ft.typ ++ ">").toList =
            'B' :: (("ox<" ++ ft.typ ++ ">" : String)).toList from rfl]
         exact head_cons_ne_nl _ (by decide))
      | (rw [show ("Option<" ++ ft.typ ++ ">").toList =
            'O' :: (("ption<" ++ ft.typ ++ ">" : String)).toList from rfl]
         exact head_cons_ne_nl _ (by decide))
      | exact hinner

/-- `sepByComma` only contributes commas and the given tokens. -/
theorem sepByComma_tokOk :
    ∀ fs : List Tokens, (∀ f ∈ fs, ∀ t ∈ f, t ≠ ONE_OR_MANY) →
      ∀ t ∈ sepByComma fs, t ≠ ONE_OR_MANY := by
  intro fs
  induction fs with
  | nil => intro _ t ht; cases ht
  | cons f rest ih =>
    intro h t ht
    cases rest with
    | nil =>
      rw [show sepByComma [f] = f from by simp [sepByComma]] at ht
      exact h f (by simp) t ht
    | cons g tl =>
      rw [show sepByComma (f :: g :: tl) = f ++ ([","] ++ sepByComma (g :: tl)) from by
        simp [sepByComma, List.intersperse]] at ht
      rcases List.mem_append.mp ht with h1 | h1
      · exact h f (by simp) t h1
      · rcases List.mem_append.mp h1 with h2 | h2
        · simp only [List.mem_singleton] at h2
          subst h2
          exact tokOk_of_head (by decide)
        · exact ih (fun f' hf' => h f' (by simp [hf'])) t h2

/-- `bind` on an `Except` error short-circuits. -/
theorem except_bind_error {β γ : Type} {e : ExpandError}
    {f : β → Except ExpandError γ} : (Except.error e >>= f) = Except.error e := rfl

/-- `bind` on an `Except` success applies the continuation. -/
theorem except_bind_ok {β γ : Type} {b : β} {f : β → Except ExpandError γ} :
    (Except.ok b >>= f) = f b := rfl

/-- A failing `bind` over `Except` fails in its first or its second stage. -/
theorem except_bind_eq_error {β γ : Type} {m : Except ExpandError β}
    {k : β → Except ExpandError γ} {e : ExpandError}
    (h : (m >>= k) = Except.error e) :
    m = Except.error e ∨ ∃ b, m = Except.ok b ∧ k b = Except.error e := by
  cases m with
  | error e2 =>
    have he : e2 = e := Except.error.inj h
    subst he
    exact Or.inl rfl
  | ok b =>
    exact Or.inr ⟨b, rfl, h⟩

/-- Elements of a successful `mapM.loop` over `Except` come from the
accumulator or from a successful application to a list element. -/
theorem mapM_loop_ok {α β : Type} {f : α → Except ExpandError β} :
    ∀ (l : List α) (acc res : List β),
    List.mapM.loop f l acc = .ok res →
    ∀ y ∈ res, y ∈ acc ∨ ∃ x ∈ l, f x = .ok y := by
  intro l
  induction l with
  | nil =>
    intro acc res h y hy
    simp only [List.mapM.loop] at h
    have hr := Except.ok.inj h
    subst hr
    exact Or.inl (List.mem_reverse.mp hy)
  | cons a as ih =>
    intro acc res h y hy
    simp only [List.mapM.loop] at h
    cases hf : f a with
    | error e =>
      rw [hf, except_bind_error] at h
      exact Except.noConfusion h
    | ok b =>
      rw [hf, except_bind_ok] at h
      rcases ih (b :: acc) res h y hy with hin | ⟨x, hx, hfx⟩
      · rcases List.mem_cons.mp hin with rfl | hin2
        · exact Or.inr ⟨a, List.mem_cons_self a as, hf⟩
        · exact Or.inl hin2
      · exact Or.inr ⟨x, List.mem_cons_of_mem a hx, hfx⟩

/-- Elements of a successful `mapM` over `Except` are successful images of
list elements. -/
theorem mapM_ok_mem {α β : Type} {f : α → Except ExpandError β} {l : List α}
    {res : List β} (h : l.mapM f = .ok res) :
    ∀ y ∈ res, ∃ x ∈ l, f x = .ok y := by
  intro y hy
  rcases mapM_loop_ok l [] res h y hy with hin | hex
  · cases hin
  · exact hex

/-- A failing `mapM.loop` over `Except` exhibits a failing element. -/
theorem mapM_loop_error {α β : Type} {f : α → Except ExpandError β} :
    ∀ (l : List α) (acc : List β) {e : ExpandError},
    List.mapM.loop f l acc = .error e →
    ∃ x ∈ l, f x = .error e := by
  intro l
  induction l with
  | nil =>
    intro acc e h
    simp only [List.mapM.loop] at h
    exact Except.noConfusion h
  | cons a as ih =>
    intro acc e h
    simp only [List.mapM.loop] at h
    cases hf : f a with
    | error e2 =>
      rw [hf, except_bind_error] at h
      have he := Except.error.inj h
      subst he
      exact ⟨a, List.mem_cons_self a as, hf⟩
    | ok b =>
      rw [hf, except_bind_ok] at h
      obtain ⟨x, hx, hfx⟩ := ih (b :: acc) h
      exact ⟨x, List.mem_cons_of_mem a hx, hfx⟩

/-- A failing `mapM` over `Except` exhibits a failing element. -/
theorem mapM_error {α β : Type} {f : α → Except ExpandError β} {l : List α}
    {e : ExpandError} (h : l.mapM f = .error e) : ∃ x ∈ l, f x = .error e :=
  mapM_loop_error l [] h

/-- A failing `foldlM` over `Except` exhibits a failing step. -/
theorem foldlM_error {β γ : Type} {f : β → γ → Except ExpandError β} :
    ∀ (l : List γ) (init : β) {e : ExpandError},
    l.foldlM f init = .error e → ∃ b x, f b x = .error e := by
  intro l
  induction l with
  | nil =>
    intro init e h
    exact Except.noConfusion h
  | cons a as ih =>
    intro init e h
    rw [List.foldlM_cons] at h
    cases hf : f init a with
    | error e2 =>
      rw [hf, except_bind_error] at h
      have he := Except.error.inj h
      subst he
      exact ⟨init, a, hf⟩
    | ok b =>
      rw [hf, except_bind_ok] at h
      exact ih b h

/-- Every member token list emitted by the field loop consists of tokens
distinct from the helper text. -/
theorem expandFieldsGo_tokOk {root : Schema} {rootName : Option String}
    {fuel : Nat} {type_name : String} {requiredList : List String} :
    ∀ (props : List (String × Schema)) (dflt noom : Bool) toks dflt2 noom2,
    expandFieldsGo root rootName fuel type_name requiredList props dflt noom =
      .ok (toks, dflt2, noom2) →
    ∀ f ∈ toks, ∀ t ∈ f, t ≠ ONE_OR_MANY := by
  intro props
  induction props with
  | nil =>
    intro dflt noom toks dflt2 noom2 h f hf
    simp only [expandFieldsGo] at h
    have hp := Except.ok.inj h
    rw [Prod.mk.injEq] at hp
    obtain ⟨hA, _⟩ := hp
    subst hA
    cases hf
  | cons entry rest ih =>
    intro dflt noom toks dflt2 noom2 h f hf
    obtain ⟨field_name, value⟩ := entry
    simp only [expandFieldsGo] at h
    cases hexp : expand_type root rootName fuel type_name
        (requiredList.any (fun req => req == field_name)) value noom with
    | error e => simp only [hexp] at h; exact Except.noConfusion h
    | ok p =>
      obtain ⟨field_type, noom1⟩ := p
      simp only [hexp] at h
      cases hrest : expandFieldsGo root rootName fuel type_name requiredList rest
          (if !strStartsWith field_type.typ "Option<" then false else dflt) noom1 with
      | error e => simp only [hrest] at h; exact Except.noConfusion h
      | ok q =>
        obtain ⟨toksR, dfltR, noomR⟩ := q
        simp only [hrest] at h
        have hp := Except.ok.inj h
        rw [Prod.mk.injEq] at hp
        obtain ⟨hA, _⟩ := hp
        subst hA
        rcases List.mem_cons.mp hf with rfl | hf2
        · intro t ht
          rcases List.mem_append.mp ht with h1 | h1
          · rcases List.mem_append.mp h1 with h2 | h2
            · rcases List.mem_append.mp h2 with h3 | h3
              · rcases List.mem_append.mp h3 with h4 | h4
                · cases hdesc : value.description with
                  | none => rw [hdesc] at h4; cases h4
                  | some c =>
                    rw [hdesc] at h4
                    rw [List.mem_singleton] at h4
                    rw [h4]
                    exact tokOk_mdc _ _
                · cases hdef : field_type.default with
                  | false =>
                    rw [hdef] at h4
                    simp only [Bool.false_eq_true, if_false] at h4
                    cases h4
                  | true =>
                    rw [hdef] at h4
                    simp only [if_true, List.mem_singleton] at h4
                    rw [h4]
                    exact tokOk_of_head (by decide)
              · exact field_tokOk field_name t h3
            · rw [List.mem_singleton] at h2
              rw [h2]
              exact tokOk_of_head (by decide)
          · rw [List.mem_singleton] at h1
            rw [h1]
            exact expand_type_tokOk hexp
        · exact ih _ _ toksR dfltR noomR hrest f hf2

/-- Enum variant tokens are never the helper text. -/
theorem variantTokens_tokOk {v : Value} {toks : Tokens}
    (h : variantTokens v = .ok toks) : ∀ t ∈ toks, t ≠ ONE_OR_MANY := by
  cases v with
  | str s =>
    have hvn : ∀ t ∈ (rename_keyword "" (to_pascal_case s)).getD [to_pascal_case s],
        t ≠ ONE_OR_MANY := by
      cases hrk : rename_keyword "" (to_pascal_case s) with
      | some tk =>
        simpa using rename_keyword_tokOk "" (to_pascal_case s) (by decide) tk hrk
      | none =>
        intro t ht
        rw [show (Option.getD (none : Option Tokens) [to_pascal_case s]) =
          [to_pascal_case s] from rfl] at ht
        rw [List.mem_singleton] at ht
        rw [ht]
        exact tokOk_pascal s
    simp only [variantTokens] at h
    cases hpc : (to_pascal_case s == s) with
    | true =>
      rw [hpc] at h
      simp only [if_true] at h
      have htoks := Except.ok.inj h
      subst htoks
      exact hvn
    | false =>
      rw [hpc] at h
      simp only [Bool.false_eq_true, if_false] at h
      have htoks := Except.ok.inj h
      subst htoks
      intro t ht
      rcases List.mem_append.mp ht with h1 | h1
      · simp only [List.mem_cons, List.mem_singleton] at h1
        rcases h1 with rfl | rfl | rfl | h0
        · exact tokOk_of_head (by decide)
        · exact tokOk_quoteStr s
        · exact tokOk_of_head (by decide)
        · cases h0
      · exact hvn t h1
  | null => exact Except.noConfusion h
  | bool b => exact Except.noConfusion h
  | num n => exact Except.noConfusion h
  | arr xs => exact Except.noConfusion h
  | obj fields => exact Except.noConfusion h

/-- The rename wrapper only adds annotation tokens. -/
theorem wrapRename_tokOk {name pascal : String} {decl : Tokens}
    (hd : ∀ t ∈ decl, t ≠ ONE_OR_MANY) :
    ∀ t ∈ wrapRename name pascal decl, t ≠ ONE_OR_MANY := by
  intro t ht
  unfold wrapRename at ht
  cases hb : (name == pascal) with
  | true =>
    rw [hb] at ht
    simp only [if_true] at ht
    exact hd t ht
  | false =>
    rw [hb] at ht
    simp only [Bool.false_eq_true, if_false] at ht
    rcases List.mem_append.mp ht with h1 | h1
    · simp only [List.mem_cons, List.mem_singleton] at h1
      rcases h1 with rfl | rfl | rfl | h0
      · exact tokOk_of_head (by decide)
      · exact tokOk_quoteStr name
      · exact tokOk_of_head (by decide)
      · cases h0
    · exact hd t h1

/-- Every token of a declaration emitted by `expand_schema` differs from the
helper text. -/
theorem expand_schema_tokOk {root : Schema} {rootName : Option String}
    {fuel : Nat} {name : String} {schema : Schema} {noom : Bool} {toks : Tokens}
    {noom1 : Bool}
    (h : expand_schema root rootName fuel name schema noom = .ok (toks, noom1)) :
    ∀ t ∈ toks, t ≠ ONE_OR_MANY := by
  unfold expand_schema at h
  cases hfe : expand_fields root rootName fuel name schema noom with
  | error e => rw [hfe] at h; exact Except.noConfusion h
  | ok p =>
    obtain ⟨fields, dflt, noomF⟩ := p
    rw [hfe] at h
    have hfieldsOk : ∀ f ∈ fields, ∀ t ∈ f, t ≠ ONE_OR_MANY := by
      unfold expand_fields at hfe
      cases hres : resolveSchema root fuel schema with
      | error e => rw [hres] at hfe; exact Except.noConfusion hfe
      | ok resolved =>
        rw [hres] at hfe
        exact expandFieldsGo_tokOk resolved.properties true noom fields dflt noomF hfe
    by_cases hne : (!fields.isEmpty) = true
    · simp only [hne, if_true] at h
      have hp := Except.ok.inj h
      rw [Prod.mk.injEq] at hp
      obtain ⟨hA, _⟩ := hp
      subst hA
      apply wrapRename_tokOk
      intro t ht
      rcases List.mem_append.mp ht with h1 | h1
      · rcases List.mem_append.mp h1 with h2 | h2
        · rcases List.mem_append.mp h2 with h3 | h3
          · rw [List.mem_singleton] at h3
            rw [h3]
            cases dflt <;> exact tokOk_of_head (by decide)
          · simp only [List.mem_cons, List.mem_singleton] at h3
            rcases h3 with rfl | rfl | rfl | h0
            · exact tokOk_of_head (by decide)
            · exact tokOk_pascal name
            · exact tokOk_of_head (by decide)
            · cases h0
        · exact sepByComma_tokOk fields hfieldsOk t h2
      · rw [List.mem_singleton] at h1
        rw [h1]
        exact tokOk_of_head (by decide)
    · rw [Bool.not_eq_true] at hne
      simp only [hne, Bool.false_eq_true, if_false] at h
      by_cases hen : ((schema.enum_.map (fun e => !e.isEmpty)).getD false) = true
      · simp only [hen, if_true] at h
        cases hmv : (schema.enum_.getD []).mapM variantTokens with
        | error e => rw [hmv] at h; exact Except.noConfusion h
        | ok variants =>
          rw [hmv] at h
          have hp := Except.ok.inj h
          rw [Prod.mk.injEq] at hp
          obtain ⟨hA, _⟩ := hp
          subst hA
          apply wrapRename_tokOk
          intro t ht
          rcases List.mem_append.mp ht with h1 | h1
          · rcases List.mem_append.mp h1 with h2 | h2
            · rcases List.mem_append.mp h2 with h3 | h3
              · rw [List.mem_singleton] at h3
                rw [h3]
                exact tokOk_of_head (by decide)
              · simp only [List.mem_cons, List.mem_singleton] at h3
                rcases h3 with rfl | rfl | rfl | h0
                · exact tokOk_of_head (by decide)
                · exact tokOk_pascal name
                · exact tokOk_of_head (by decide)
                · cases h0
            · refine sepByComma_tokOk variants ?_ t h2
              intro f hf
              obtain ⟨v, _, hv⟩ := mapM_ok_mem hmv f hf
              exact variantTokens_tokOk hv
          · rw [List.mem_singleton] at h1
            rw [h1]
            exact tokOk_of_head (by decide)
      · rw [Bool.not_eq_true] at hen
        simp only [hen, Bool.false_eq_true, if_false] at h
        cases hexp : expand_type root rootName fuel "" true schema noomF with
        | error e => rw [hexp] at h; exact Except.noConfusion h
        | ok q =>
          obtain ⟨ft, noom2⟩ := q
          rw [hexp] at h
          have hp := Except.ok.inj h
          rw [Prod.mk.injEq] at hp
          obtain ⟨hA, _⟩ := hp
          subst hA
          intro t ht
          simp only [List.mem_cons, List.mem_singleton] at ht
          rcases ht with rfl | rfl | rfl | h2 | rfl | h0
          · exact tokOk_of_head (by decide)
          · exact tokOk_pascal name
          · exact tokOk_of_head (by decide)
          · rw [h2]
            exact expand_type_tokOk hexp
          · exact tokOk_of_head (by decide)
          · cases h0

/-- Every token accumulated by the definitions loop differs from the helper
text. -/
theorem expandDefsGo_tokOk {root : Schema} {rootName : Option String}
    {fuel : Nat} :
    ∀ (defs : List (String × Schema)) (noom : Bool) (l : List Tokens)
      (noom' : Bool),
    expandDefsGo root rootName fuel defs noom = .ok (l, noom') →
    ∀ f ∈ l, ∀ t ∈ f, t ≠ ONE_OR_MANY := by
  intro defs
  induction defs with
  | nil =>
    intro noom l noom' h f hf
    simp only [expandDefsGo] at h
    have hp := Except.ok.inj h
    rw [Prod.mk.injEq] at hp
    obtain ⟨hA, _⟩ := hp
    subst hA
    cases hf
  | cons entry rest ih =>
    intro noom l noom' h f hf
    obtain ⟨name, d⟩ := entry
    simp only [expandDefsGo] at h
    cases hds : expand_schema root rootName fuel name d noom with
    | error e => simp only [hds] at h; exact Except.noConfusion h
    | ok p =>
      obtain ⟨type_decl, noomD⟩ := p
      simp only [hds] at h
      cases hrest : expandDefsGo root rootName fuel rest noomD with
      | error e => simp only [hrest] at h; exact Except.noConfusion h
      | ok q =>
        obtain ⟨toksR, noomR⟩ := q
        simp only [hrest] at h
        have hp := Except.ok.inj h
        rw [Prod.mk.injEq] at hp
        obtain ⟨hA, _⟩ := hp
        subst hA
        rcases List.mem_cons.mp hf with rfl | hf2
        · intro t ht
          cases hdesc : d.description with
          | none =>
            rw [hdesc] at ht
            exact expand_schema_tokOk hds t ht
          | some c =>
            rw [hdesc] at ht
            rcases List.mem_append.mp ht with h1 | h1
            · rw [List.mem_singleton] at h1
              rw [h1]
              exact tokOk_mdc _ _
            · exact expand_schema_tokOk hds t h1
        · exact ih noomD toksR noomR hrest f hf2

/-- Every token of the accumulated declaration list differs from the helper
text. -/
theorem expandTypes_tokOk {root : Schema} {rootName : Option String}
    {fuel : Nat} {schema : Schema} {noom : Bool} {types : List Tokens}
    {noom' : Bool}
    (h : expandTypes root rootName fuel schema noom = .ok (types, noom')) :
    ∀ f ∈ types, ∀ t ∈ f, t ≠ ONE_OR_MANY := by
  unfold expandTypes at h
  cases hdefs : expand_definitions root rootName fuel schema noom with
  | error e => simp only [hdefs] at h; exact Except.noConfusion h
  | ok p =>
    obtain ⟨l, noom1⟩ := p
    simp only [hdefs] at h
    unfold expand_definitions at hdefs
    have hl := expandDefsGo_tokOk schema.definitions noom l noom1 hdefs
    cases rootName with
    | none =>
      have hp := Except.ok.inj h
      rw [Prod.mk.injEq] at hp
      obtain ⟨hA, _⟩ := hp
      subst hA
      exact hl
    | some name =>
      cases hroot : expand_schema root (some name) fuel name schema noom1 with
      | error e => simp only [hroot] at h; exact Except.noConfusion h
      | ok q =>
        obtain ⟨d, noom2⟩ := q
        simp only [hroot] at h
        have hp := Except.ok.inj h
        rw [Prod.mk.injEq] at hp
        obtain ⟨hA, _⟩ := hp
        subst hA
        intro f hf
        rcases List.mem_append.mp hf with h1 | h1
        · exact hl f h1
        · rw [List.mem_singleton] at h1
          rw [h1]
          exact expand_schema_tokOk hroot

/-- C1 (amended): for a node with no `ref` whose `any_of` has exactly two
branches, when the second branch resolves to a schema whose first declared
type is `array` and whose first item resolves structurally equal to the
resolved first branch, the inner inference returns `OneOrMany<T>` (`T` the
expansion of the first branch) with the implicit-default flag true, setting
the global one-or-many flag for the rest of the expansion; every other
two-branch shape whose checks complete returns the opaque
`serde_json::Value`; an `any_of` of any other length is ignored (expansion
proceeds exactly as if `any_of` were absent); and the emitted output
contains the helper text exactly once when the flag ends up set and never
otherwise, however many fields used the pattern. -/
theorem one_or_many_pattern :
    (∀ root rootName fuel typ noom a0 a1 simple array item0 ritem inner noom',
      typ.ref_ = none →
      typ.any_of = some [a0, a1] →
      resolveSchema root fuel a0 = .ok simple →
      resolveSchema root fuel a1 = .ok array →
      (OneOrMany.toList array.type_).head? = some SimpleTypes.array →
      array.items.head? = some item0 →
      resolveSchema root fuel item0 = .ok ritem →
      Schema.beq simple ritem = true →
      expand_type_ root rootName fuel a0 true = .ok (inner, noom') →
      expand_type_ root rootName (fuel + 1) typ noom =
        .ok (⟨"OneOrMany<" ++ inner.typ ++ ">", true⟩, noom')) ∧
    (∀ root rootName fuel typ noom a0 a1 simple array t0,
      typ.ref_ = none →
      typ.any_of = some [a0, a1] →
      resolveSchema root fuel a0 = .ok simple →
      resolveSchema root fuel a1 = .ok array →
      (OneOrMany.toList array.type_).head? = some t0 →
      t0 ≠ SimpleTypes.array →
      expand_type_ root rootName (fuel + 1) typ noom =
        .ok (.ofString "serde_json::Value", noom)) ∧
    (∀ root rootName fuel typ noom a0 a1 simple array item0 ritem,
      typ.ref_ = none →
      typ.any_of = some [a0, a1] →
      resolveSchema root fuel a0 = .ok simple →
      resolveSchema root fuel a1 = .ok array →
      (OneOrMany.toList array.type_).head? = some SimpleTypes.array →
      array.items.head? = some item0 →
      resolveSchema root fuel item0 = .ok ritem →
      Schema.beq simple ritem = false →
      expand_type_ root rootName (fuel + 1) typ noom =
        .ok (.ofString "serde_json::Value", noom)) ∧
    (∀ root rootName fuel typ noom l,
      typ.ref_ = none →
      typ.any_of = some l → l.length ≠ 2 →
      expand_type_ root rootName (fuel + 1) typ noom =
        expand_type_ root rootName (fuel + 1) (typ.withAnyOf none) noom) ∧
    (∀ rootName fuel schema toks flag,
      runExpand rootName fuel schema = .ok (toks, flag) →
      toks.count ONE_OR_MANY = if flag then 1 else 0) := by
  refine ⟨?_, ?_, ?_, ?_, ?_⟩
  · intro root rootName fuel typ noom a0 a1 simple array item0 ritem inner noom'
      href hany hr0 hr1 hh hit hri hbeq hrec
    simp only [expand_type_, href, hany, hr0, hr1, hh, hit, hri, hbeq, hrec]
    rfl
  · intro root rootName fuel typ noom a0 a1 simple array t0
      href hany hr0 hr1 hh ht0
    have ht0' : (t0 == SimpleTypes.array) = false := by
      simp [ht0]
    simp only [expand_type_, href, hany, hr0, hr1, hh, ht0', Bool.false_eq_true,
      if_false]
  · intro root rootName fuel typ noom a0 a1 simple array item0 ritem
      href hany hr0 hr1 hh hit hri hbeq
    simp only [expand_type_, href, hany, hr0, hr1, hh, hit, hri, hbeq,
      Bool.false_eq_true, if_false, if_true]
    split <;> rfl
  · intro root rootName fuel typ noom l href hany hlen
    cases typ with
    | mk tr tt tp tq ti ta tal tan te td tde tdf =>
      simp only [Schema.ref_] at href
      subst href
      simp only [Schema.any_of] at hany
      subst hany
      match l, hlen with
      | [], _ => rfl
      | [a], _ => rfl
      | [a, b], h => exact absurd rfl h
      | a :: b :: c :: rest, _ => rfl
  · intro rootName fuel schema toks flag h
    unfold runExpand expand at h
    cases hT : expandTypes schema rootName fuel schema false with
    | error e => simp only [hT] at h; exact Except.noConfusion h
    | ok p =>
      obtain ⟨types, noom1⟩ := p
      simp only [hT] at h
      have hp := Except.ok.inj h
      rw [Prod.mk.injEq] at hp
      obtain ⟨hA, hB⟩ := hp
      subst hB
      subst hA
      have hok := expandTypes_tokOk hT
      have hflat : ∀ t ∈ types.flatten, t ≠ ONE_OR_MANY := by
        intro t ht
        rw [List.mem_flatten] at ht
        obtain ⟨f, hf, htf⟩ := ht
        exact hok f hf t htf
      rw [show ([if noom1 then ONE_OR_MANY else ""] ++ types.flatten) =
        (if noom1 then ONE_OR_MANY else "") :: types.flatten from rfl]
      rw [List.count_cons]
      have hzero : types.flatten.count ONE_OR_MANY = 0 :=
        List.count_eq_zero.mpr (fun hc => hflat _ hc rfl)
      rw [hzero]
      cases noom1 with
      | true => simp
      | false =>
        simp only [if_false, Bool.false_eq_true, Nat.zero_add]
        rw [show (("" : String) == ONE_OR_MANY) = false from by decide]
        simp

/-- C1 counterexample: a node whose `any_of` has three branches and declares
`"type": "integer"` expands to `i64`, not to the opaque value type — the
claim's "every other any_of shape yields serde_json::Value" fails. -/
theorem one_or_many_pattern_counterexample :
    expand_type_ Schema.empty none 10 anyOfThreeSchema false =
      .ok (.ofString "i64", false) ∧
    FieldType.ofString "i64" ≠ FieldType.ofString "serde_json::Value" :=
  ⟨rfl, by decide⟩

/-- C1 witness: the concrete one-or-many idiom over strings. -/
theorem one_or_many_pattern_witness :
    expand_type_ Schema.empty none 10 oneOrManySchema false =
      .ok (⟨"OneOrMany<String>", true⟩, true) :=
  one_or_many_pattern.1 Schema.empty none 9 oneOrManySchema false
    strSchema arrOfStrSchema strSchema arrOfStrSchema strSchema strSchema
    (.ofString "String") true rfl rfl rfl rfl rfl rfl rfl
    (by simp [strSchema, Schema.beq, Schema.beqProps, Schema.beqList,
      Schema.beqOptList, Value.optBeq, Value.optListBeq]) rfl

/-! ### Enumeration of the fatal causes -/

/-- A failed `.unwrap()` is a listed fatal cause. -/
theorem fatal_unwrap : FatalCause (.panic unwrapErrMsg) :=
  Or.inr (Or.inr (Or.inr (Or.inr (Or.inr (Or.inl rfl)))))

/-- The fuel marker is a listed fatal cause. -/
theorem fatal_fuel : FatalCause .outOfFuel := Or.inl rfl

/-- A slice index panic is a listed fatal cause. -/
theorem fatal_index : FatalCause (.panic indexOobMsg) :=
  Or.inr (Or.inr (Or.inr (Or.inr (Or.inl rfl))))

theorem parseOptString_fatal {fields k e}
    (h : parseOptString fields k = .error e) : FatalCause e := by
  unfold parseOptString at h
  split at h <;>
    first
    | exact Except.noConfusion h
    | exact (Except.error.inj h) ▸ fatal_unwrap

theorem parseSimpleType_fatal {x e}
    (h : parseSimpleType x = .error e) : FatalCause e := by
  unfold parseSimpleType at h
  split at h
  · split at h <;>
      first
      | exact Except.noConfusion h
      | exact (Except.error.inj h) ▸ fatal_unwrap
  · exact (Except.error.inj h) ▸ fatal_unwrap

theorem parseType_fatal {fields e}
    (h : parseType fields = .error e) : FatalCause e := by
  unfold parseType at h
  split at h
  · exact Except.noConfusion h
  · split at h <;>
      first
      | exact Except.noConfusion h
      | exact (Except.error.inj h) ▸ fatal_unwrap
  · rename_i xs heq
    cases hm : xs.mapM parseSimpleType with
    | error e2 =>
      rw [hm, except_bind_error] at h
      obtain ⟨x, _, hx⟩ := mapM_error hm
      exact (Except.error.inj h) ▸ parseSimpleType_fatal hx
    | ok ts =>
      rw [hm, except_bind_ok] at h
      exact Except.noConfusion h
  · exact (Except.error.inj h) ▸ fatal_unwrap

theorem parseRequired_fatal {fields e}
    (h : parseRequired fields = .error e) : FatalCause e := by
  unfold parseRequired at h
  cases hl : lookupVal fields "required" with
  | none => rw [hl] at h; exact Except.noConfusion h
  | some x =>
    simp only [hl] at h
    cases x with
    | arr xs =>
      rcases except_bind_eq_error h with hm | ⟨ss, _, hk⟩
      · obtain ⟨y, _, hy⟩ := mapM_error hm
        cases y <;> first
          | exact Except.noConfusion hy
          | exact (Except.error.inj hy) ▸ fatal_unwrap
      · exact Except.noConfusion hk
    | null => exact (Except.error.inj h) ▸ fatal_unwrap
    | bool b => exact (Except.error.inj h) ▸ fatal_unwrap
    | num n => exact (Except.error.inj h) ▸ fatal_unwrap
    | str s => exact (Except.error.inj h) ▸ fatal_unwrap
    | obj fs => exact (Except.error.inj h) ▸ fatal_unwrap

theorem parseProps_fatal {sf fields k e}
    (hsf : ∀ v e2, sf v = .error e2 → FatalCause e2)
    (h : parseProps sf fields k = .error e) : FatalCause e := by
  unfold parseProps at h
  split at h
  · exact Except.noConfusion h
  · rename_i props heq
    obtain ⟨p, _, hp⟩ := mapM_error h
    cases hv : sf p.2 with
    | error e2 =>
      rw [hv, except_bind_error] at hp
      exact (Except.error.inj hp) ▸ hsf p.2 e2 hv
    | ok s =>
      rw [hv, except_bind_ok] at hp
      exact Except.noConfusion hp
  · exact (Except.error.inj h) ▸ fatal_unwrap

theorem parseItems_fatal {sf fields e}
    (hsf : ∀ v e2, sf v = .error e2 → FatalCause e2)
    (h : parseItems sf fields = .error e) : FatalCause e := by
  unfold parseItems at h
  cases hl : lookupVal fields "items" with
  | none => rw [hl] at h; exact Except.noConfusion h
  | some x =>
    simp only [hl] at h
    have hsingle : ∀ v, (sf v >>= fun s => pure [s]) = Except.error e →
        FatalCause e := by
      intro v hv2
      rcases except_bind_eq_error hv2 with hm | ⟨s, _, hk⟩
      · exact hsf v e hm
      · exact Except.noConfusion hk
    cases x with
    | arr xs =>
      obtain ⟨y, _, hy⟩ := mapM_error h
      exact hsf y e hy
    | null => exact hsingle Value.null h
    | bool b => exact hsingle (Value.bool b) h
    | num n => exact hsingle (Value.num n) h
    | str s => exact hsingle (Value.str s) h
    | obj fs => exact hsingle (Value.obj fs) h

theorem parseSchemaListOpt_fatal {sf fields k e}
    (hsf : ∀ v e2, sf v = .error e2 → FatalCause e2)
    (h : parseSchemaListOpt sf fields k = .error e) : FatalCause e := by
  unfold parseSchemaListOpt at h
  split at h
  · exact Except.noConfusion h
  · rename_i xs heq
    cases hm : xs.mapM sf with
    | error e2 =>
      rw [hm, except_bind_error] at h
      obtain ⟨x, _, hx⟩ := mapM_error hm
      exact (Except.error.inj h) ▸ hsf x e2 hx
    | ok ss =>
      rw [hm, except_bind_ok] at h
      exact Except.noConfusion h
  · exact (Except.error.inj h) ▸ fatal_unwrap

theorem parseEnum_fatal {fields e}
    (h : parseEnum fields = .error e) : FatalCause e := by
  unfold parseEnum at h
  split at h <;>
    first
    | exact Except.noConfusion h
    | exact (Except.error.inj h) ▸ fatal_unwrap

theorem type_ref_fatal {rootName s e}
    (h : type_ref rootName s = .error e) : FatalCause e := by
  unfold type_ref at h
  split at h
  · cases rootName with
    | some n => exact Except.noConfusion h
    | none =>
      exact (Except.error.inj h) ▸ Or.inr (Or.inl rfl)
  · split at h
    · exact Except.noConfusion h
    · exact (Except.error.inj h) ▸ Or.inr (Or.inr (Or.inl rfl))

theorem schema_ref_fatal {root s e}
    (h : schema_ref root s = .error e) : FatalCause e := by
  unfold schema_ref at h
  obtain ⟨b, x, hbx⟩ := foldlM_error _ _ h
  by_cases h1 : (x == "#") = true
  · rw [if_pos h1] at hbx
    exact Except.noConfusion hbx
  · rw [if_neg h1] at hbx
    by_cases h2 : (x == "definitions") = true
    · rw [if_pos h2] at hbx
      exact Except.noConfusion hbx
    · rw [if_neg h2] at hbx
      cases hld : lookupDef b.definitions x with
      | some v => rw [hld] at hbx; exact Except.noConfusion hbx
      | none =>
        rw [hld] at hbx
        exact (Except.error.inj hbx) ▸
          Or.inr (Or.inr (Or.inr (Or.inr (Or.inr (Or.inr ⟨s, x, rfl⟩)))))

/-- Errors of the `all_of`-folding part of schema resolution are fatal
causes (given the induction hypothesis for the smaller fuel). -/
theorem resolveSchema_fatal_all_of {n : Nat} {root : Schema} {s1 : Schema}
    {e : ExpandError}
    (ih : ∀ root sc e2, resolveSchema root n sc = .error e2 → FatalCause e2)
    (h : (match s1.all_of with
          | some (a0 :: rest) => do
              let seed ← resolveSchema root n a0
              rest.foldlM (fun result d => do
                let rd ← resolveSchema root n d
                pure (merge_all_of result rd)) seed
          | _ => pure s1) = .error e) : FatalCause e := by
  cases hao : s1.all_of with
  | none => rw [hao] at h; exact Except.noConfusion h
  | some l =>
    rw [hao] at h
    cases l with
    | nil => exact Except.noConfusion h
    | cons a0 rest =>
      have h2 : (do
          let seed ← resolveSchema root n a0
          rest.foldlM (fun result d => do
            let rd ← resolveSchema root n d
            pure (merge_all_of result rd)) seed) = Except.error e := h
      cases hr : resolveSchema root n a0 with
      | error e2 =>
        rw [hr, except_bind_error] at h2
        exact (Except.error.inj h2) ▸ ih root a0 e2 hr
      | ok seed =>
        rw [hr, except_bind_ok] at h2
        obtain ⟨b, x, hbx⟩ := foldlM_error _ _ h2
        rcases except_bind_eq_error hbx with hm | ⟨rd, _, hk⟩
        · exact ih root x e hm
        · exact Except.noConfusion hk

theorem resolveSchema_fatal :
    ∀ fuel root sc e, resolveSchema root fuel sc = .error e → FatalCause e := by
  intro fuel
  induction fuel with
  | zero =>
    intro root sc e h
    exact (Except.error.inj h) ▸ fatal_fuel
  | succ n ih =>
    intro root sc e h
    simp only [resolveSchema] at h
    cases href : sc.ref_ with
    | some r =>
      simp only [href] at h
      cases hsr : schema_ref root r with
      | error e2 =>
        rw [hsr, except_bind_error] at h
        exact (Except.error.inj h) ▸ schema_ref_fatal hsr
      | ok s1 =>
        rw [hsr, except_bind_ok] at h
        exact resolveSchema_fatal_all_of ih h
    | none =>
      simp only [href] at h
      rw [show (pure sc : Except ExpandError Schema) = Except.ok sc from rfl,
        except_bind_ok] at h
      exact resolveSchema_fatal_all_of ih h

/-- Failures of schema re-deserialization are fatal causes: the fuel marker
or a failed `.unwrap()`. -/
theorem schemaFromValue_fatal :
    ∀ fuel v e, schemaFromValue fuel v = .error e → FatalCause e := by
  intro fuel
  induction fuel with
  | zero => intro v e h; exact (Except.error.inj h) ▸ fatal_fuel
  | succ n ih =>
    intro v e h
    cases v with
    | obj fields =>
      simp only [schemaFromValue] at h
      rcases except_bind_eq_error h with h1 | ⟨a1, _, h⟩
      · exact parseOptString_fatal h1
      rcases except_bind_eq_error h with h1 | ⟨a2, _, h⟩
      · exact parseType_fatal h1
      rcases except_bind_eq_error h with h1 | ⟨a3, _, h⟩
      · exact parseProps_fatal ih h1
      rcases except_bind_eq_error h with h1 | ⟨a4, _, h⟩
      · exact parseRequired_fatal h1
      rcases except_bind_eq_error h with h1 | ⟨a5, _, h⟩
      · exact parseItems_fatal ih h1
      rcases except_bind_eq_error h with h1 | ⟨a6, _, h⟩
      · exact parseSchemaListOpt_fatal ih h1
      rcases except_bind_eq_error h with h1 | ⟨a7, _, h⟩
      · exact parseSchemaListOpt_fatal ih h1
      rcases except_bind_eq_error h with h1 | ⟨a8, _, h⟩
      · exact parseEnum_fatal h1
      rcases except_bind_eq_error h with h1 | ⟨a9, _, h⟩
      · exact parseOptString_fatal h1
      rcases except_bind_eq_error h with h1 | ⟨a10, _, h⟩
      · exact parseProps_fatal ih h1
      exact Except.noConfusion h
    | null => exact (Except.error.inj h) ▸ fatal_unwrap
    | bool b => exact (Except.error.inj h) ▸ fatal_unwrap
    | num m => exact (Except.error.inj h) ▸ fatal_unwrap
    | str s => exact (Except.error.inj h) ▸ fatal_unwrap
    | arr xs => exact (Except.error.inj h) ▸ fatal_unwrap

/-- Failures of the inner type inference are fatal causes. -/
theorem expand_type__fatal :
    ∀ fuel root rootName typ noom e,
    expand_type_ root rootName fuel typ noom = .error e → FatalCause e := by
  intro fuel
  induction fuel with
  | zero =>
    intro root rootName typ noom e h
    exact (Except.error.inj h) ▸ fatal_fuel
  | succ n ih =>
    intro root rootName typ noom e h
    simp only [expand_type_] at h
    split at h
    · split at h
      · exact Except.noConfusion h
      · next e2 heq2 => exact (Except.error.inj h) ▸ type_ref_fatal heq2
    · split at h
      · split at h
        · next e2 heq3 =>
          exact (Except.error.inj h) ▸ resolveSchema_fatal n root _ e2 heq3
        · split at h
          · next e2 heq4 =>
            exact (Except.error.inj h) ▸ resolveSchema_fatal n root _ e2 heq4
          · split at h
            · exact (Except.error.inj h) ▸ fatal_index
            · split at h
              · split at h
                · exact (Except.error.inj h) ▸ fatal_index
                · split at h
                  · next e2 heq7 =>
                    exact (Except.error.inj h) ▸ resolveSchema_fatal n root _ e2 heq7
                  · split at h
                    · split at h
                      · next e2 heq9 =>
                        exact (Except.error.inj h) ▸ ih root rootName _ true e2 heq9
                      · exact Except.noConfusion h
                    · exact Except.noConfusion h
              · exact Except.noConfusion h
      · split at h
        · split at h
          · split at h
            · exact Except.noConfusion h
            · exact Except.noConfusion h
          · exact Except.noConfusion h
          · exact Except.noConfusion h
          · exact Except.noConfusion h
          · split at h
            · split at h
              · next e2 heqA =>
                exact (Except.error.inj h) ▸ schemaFromValue_fatal n _ e2 heqA
              · split at h
                · next e2 heqB =>
                  exact (Except.error.inj h) ▸ ih root rootName _ noom e2 heqB
                · exact Except.noConfusion h
            · exact Except.noConfusion h
          · split at h
            · split at h
              · next e2 heqC =>
                exact (Except.error.inj h) ▸ ih root rootName _ noom e2 heqC
              · exact Except.noConfusion h
            · exact Except.noConfusion h
          · exact Except.noConfusion h
        · exact Except.noConfusion h

/-- Failures of field-level type expansion are fatal causes. -/
theorem expand_type_fatal {root rootName fuel tn req typ noom e}
    (h : expand_type root rootName fuel tn req typ noom = .error e) :
    FatalCause e := by
  unfold expand_type at h
  split at h
  · next e2 heq =>
    exact (Except.error.inj h) ▸ expand_type__fatal fuel root rootName typ noom e2 heq
  · exact Except.noConfusion h

/-- Failures of the field-emission loop are fatal causes. -/
theorem expandFieldsGo_fatal :
    ∀ (props : List (String × Schema)) root rootName fuel tn reqs dflt noom e,
    expandFieldsGo root rootName fuel tn reqs props dflt noom = .error e →
    FatalCause e := by
  intro props
  induction props with
  | nil =>
    intro root rootName fuel tn reqs dflt noom e h
    exact Except.noConfusion h
  | cons p rest ih =>
    intro root rootName fuel tn reqs dflt noom e h
    obtain ⟨fname, value⟩ := p
    simp only [expandFieldsGo] at h
    split at h
    · next e2 heq => exact (Except.error.inj h) ▸ expand_type_fatal heq
    · next ft noom1 heq =>
      split at h
      · next e2 heq2 =>
        exact (Except.error.inj h) ▸ ih root rootName fuel tn reqs _ noom1 e2 heq2
      · exact Except.noConfusion h

/-- Failures of `expand_fields` are fatal causes. -/
theorem expand_fields_fatal {root rootName fuel tn schema noom e}
    (h : expand_fields root rootName fuel tn schema noom = .error e) :
    FatalCause e := by
  unfold expand_fields at h
  split at h
  · next e2 heq =>
    exact (Except.error.inj h) ▸ resolveSchema_fatal fuel root schema e2 heq
  · next resolved heq =>
    exact expandFieldsGo_fatal _ root rootName fuel tn _ true noom e h

/-- A failing enum variant is a non-string literal: a fatal cause. -/
theorem variantTokens_fatal {v e}
    (h : variantTokens v = .error e) : FatalCause e := by
  unfold variantTokens at h
  split at h
  · next s =>
    have hok : ∀ (x y : Tokens) (c : Bool),
        (if c = true then Except.ok x
         else Except.ok (y ++ x) : Except ExpandError Tokens) ≠ Except.error e := by
      intro x y c
      cases c <;> simp
    exact absurd h (hok _ _ _)
  · exact (Except.error.inj h) ▸ Or.inr (Or.inr (Or.inr (Or.inl rfl)))

/-- Failures of a whole declaration expansion are fatal causes. -/
theorem expand_schema_fatal {root rootName fuel oname schema noom e}
    (h : expand_schema root rootName fuel oname schema noom = .error e) :
    FatalCause e := by
  unfold expand_schema at h
  split at h
  · next e2 heq => exact (Except.error.inj h) ▸ expand_fields_fatal heq
  · next fields dflt noom1 heq =>
    split at h
    · exact Except.noConfusion h
    · split at h
      · split at h
        · next e2 heq2 =>
          obtain ⟨x, _, hx⟩ := mapM_error heq2
          exact (Except.error.inj h) ▸ variantTokens_fatal hx
        · exact Except.noConfusion h
      · split at h
        · next e2 heq2 => exact (Except.error.inj h) ▸ expand_type_fatal heq2
        · exact Except.noConfusion h

/-- Failures of the definitions loop are fatal causes. -/
theorem expandDefsGo_fatal :
    ∀ (defs : List (String × Schema)) root rootName fuel noom e,
    expandDefsGo root rootName fuel defs noom = .error e → FatalCause e := by
  intro defs
  induction defs with
  | nil =>
    intro root rootName fuel noom e h
    exact Except.noConfusion h
  | cons p rest ih =>
    intro root rootName fuel noom e h
    obtain ⟨name, d⟩ := p
    simp only [expandDefsGo] at h
    split at h
    · next e2 heq => exact (Except.error.inj h) ▸ expand_schema_fatal heq
    · next decl noom1 heq =>
      split at h
      · next e2 heq2 =>
        exact (Except.error.inj h) ▸ ih root rootName fuel noom1 e2 heq2
      · exact Except.noConfusion h

/-- Failures of the declaration accumulator are fatal causes. -/
theorem expandTypes_fatal {root rootName fuel schema noom e}
    (h : expandTypes root rootName fuel schema noom = .error e) :
    FatalCause e := by
  unfold expandTypes at h
  split at h
  · next e2 heq =>
    exact (Except.error.inj h) ▸
      expandDefsGo_fatal schema.definitions root rootName fuel noom e2 heq
  · next types noom1 heq =>
    split at h
    · split at h
      · next e2 heq2 => exact (Except.error.inj h) ▸ expand_schema_fatal heq2
      · exact Except.noConfusion h
    · exact Except.noConfusion h

/-- Failures of `expand` are fatal causes. -/
theorem expand_fatal {root rootName fuel schema noom e}
    (h : expand root rootName fuel schema noom = .error e) : FatalCause e := by
  unfold expand at h
  split at h
  · next e2 heq => exact (Except.error.inj h) ▸ expandTypes_fatal heq
  · exact Except.noConfusion h

/-- C6: corrected fatal-abort enumeration.  Every fatal abort of a whole
expansion run is one of: the embedding's fuel marker (standing for a
reference cycle the Rust code would follow without bound), a `#` type-name
request without a root name, the (unreachable) empty-split marker, a
non-string enum literal, a slice `[0]` index panic on an empty list (raised
by the two-branch `anyOf` pattern check on an empty declared-type or items
list), a failed `from_value::<Schema>(..).unwrap()` (raised while
re-deserializing `additionalProperties`), or an unresolvable reference —
strictly more causes than the four the claim lists. -/
theorem expansion_fatal_causes :
    ∀ rootName fuel schema e,
    runExpand rootName fuel schema = .error e → FatalCause e := by
  intro rootName fuel schema e h
  exact expand_fatal h

/-- C6 counterexample: a two-branch `anyOf` whose branches declare no type is
an unmodeled shape, yet the field carrying it does not degrade to the opaque
value type — the pattern check indexes `array.type_[0]` on an empty slice
and the whole expansion aborts with an index panic, which is none of the
claim's four fatal conditions. -/
theorem expansion_fatal_causes_counterexample :
    runExpand none 10 anyOfEmptyPairDoc =
      .error (.panic indexOobMsg) := rfl

/-- C6 witness: the enumeration applied at the concrete aborting document. -/
theorem expansion_fatal_causes_witness :
    runExpand none 10 anyOfEmptyPairDoc = .error (.panic indexOobMsg) ∧
    FatalCause (.panic indexOobMsg) :=
  ⟨rfl, expansion_fatal_causes none 10 anyOfEmptyPairDoc (.panic indexOobMsg) rfl⟩

/-- C8 witness: a document with one definition and a named root yields
exactly two declarations. -/
theorem expand_emits_definitions_in_order_witness :
    ([["pub type", "A", "=", "String", ";"],
      ["pub type", "R", "=", "serde_json::Value", ";"]] : List Tokens).length =
      refDoc.definitions.length +
        (match (some "r" : Option String) with | some _ => 1 | none => 0) :=
  (expand_emits_definitions_in_order refDoc (some "r") 10 refDoc false
    [["pub type", "A", "=", "String", ";"],
     ["pub type", "R", "=", "serde_json::Value", ";"]] false rfl).1

end Schemafy
